import Mathlib

/-!
# Iterative dataflow engine (`lib/snippets/dataflow/DF.hh`)

A shallow embedding of `Dataflow<forward>`: the worklist seeding `bfs`, the two
scheduler steps `reversePostOrder` (forward) and `postOrder` (backward) and the
driver `runOnFunction`, followed by theorems about them.

Modelling conventions.

* A basic block is a value of a type `B` with decidable equality; the blocks of
  the analysed function are exactly the inhabitants of `B`, so the `in` and
  `out` maps (one vector per block of the function) are total functions on `B`.
* `llvm::BitVector` is a list of bits, compared by value.
* The four pure virtual members are the fields of `Analysis`. `transfer(BB)`
  reads the side of `BB` that the step has just written (`in[BB]` in a forward
  run, `out[BB]` in a backward run), so it takes that vector as an argument.
  `meet` and `getBoundaryCondition` mutate their first argument in place; they
  return the new content of that argument here.
* Loops that need not terminate carry a fuel argument or are unfolded a given
  number of times.
-/

namespace Dataflow

/-- Content of an `llvm::BitVector`. -/
abbrev BitVector := List Bool

/-- Bitwise OR as `BitVector::operator|=` computes it: the shorter operand is
extended, then the bits are or-ed position by position. -/
def bvOr : BitVector → BitVector → BitVector
  | [], ys => ys
  | x :: xs, [] => x :: xs
  | x :: xs, y :: ys => (x || y) :: bvOr xs ys

/-- Bitwise inclusion between two vectors of the same length. -/
def bvLe : BitVector → BitVector → Bool
  | [], [] => true
  | x :: xs, y :: ys => (!x || y) && bvLe xs ys
  | _, _ => false

/-- Bitwise complement (`BitVector::flip`). -/
def bvFlip (v : BitVector) : BitVector := v.map (fun b => !b)

/-- The all-zero vector of length `h`. -/
def zeros (h : Nat) : BitVector := List.replicate h false

/-- Number of set bits (`BitVector::count`). -/
def popcount (v : BitVector) : Nat := v.count true

/-- The control-flow graph as the engine sees it: `getEntryBlock`, the
successor enumeration `succ_begin .. succ_end` and the predecessor enumeration
`pred_begin .. pred_end` of each block. -/
structure CFG (B : Type) where
  entry : B
  succ : B → List B
  pred : B → List B

/-- Predecessor and successor enumerations describe the same edges. -/
def CFG.Consistent {B : Type} (cfg : CFG B) : Prop :=
  ∀ p b : B, p ∈ cfg.pred b ↔ b ∈ cfg.succ p

/-- Block `b` can be reached from the entry block over successor edges. -/
def CFG.Reachable {B : Type} (cfg : CFG B) (b : B) : Prop :=
  Relation.ReflTransGen (fun x y => y ∈ cfg.succ x) cfg.entry b

/-- The members a concrete analysis supplies (`top` and the four pure virtual
functions, lines 49 and 207-210). -/
structure Analysis (B : Type) where
  top : BitVector
  getBoundaryCondition : BitVector → BitVector
  meet : BitVector → BitVector → BitVector
  initialInteriorPoint : B → BitVector
  transfer : B → BitVector → BitVector

/-- The mutable data of a run: the maps `in` and `out` and the worklist. -/
structure State (B : Type) where
  inp : B → BitVector
  out : B → BitVector
  worklist : List B

/-- Assignment through the stored pointer, `*(*m)[b] = v`. -/
def setVec {B : Type} [DecidableEq B] (m : B → BitVector) (b : B) (v : BitVector) :
    B → BitVector :=
  fun c => if c = b then v else m c

/-- The fold of a step over the neighbours `p, ps` of the popped block: begin
with a copy of `m p`, then `meet` the vectors of the remaining neighbours into
it one at a time (lines 155-160 and 183-188). -/
def meetFold {B : Type} (a : Analysis B) (m : B → BitVector) (p : B) (ps : List B) : BitVector :=
  ps.foldl (fun acc x => a.meet acc (m x)) (m p)

/-- Queue loop of `bfs` (lines 130-142): pop the head of `l`, append it to the
worklist, mark it visited, push its successors that are not marked. The result
is `none` when the fuel runs out before the queue is empty. -/
def bfsLoop {B : Type} [DecidableEq B] (cfg : CFG B) :
    Nat → (B → Bool) → List B → List B → Option (List B)
  | _, _, [], worklist => some worklist
  | 0, _, _ :: _, _ => none
  | fuel + 1, visited, curNode :: l, worklist =>
    let visited1 : B → Bool := fun b => if b = curNode then true else visited b
    bfsLoop cfg fuel visited1
      (l ++ (cfg.succ curNode).filter (fun x => !visited1 x)) (worklist ++ [curNode])

/-- Seeding `bfs` (lines 119-146): every block starts unvisited and the queue
holds the entry block. -/
def bfs {B : Type} [DecidableEq B] (cfg : CFG B) (fuel : Nat) (worklist : List B) :
    Option (List B) :=
  bfsLoop cfg fuel (fun _ => false) [cfg.entry] worklist

/-- Forward step `reversePostOrder` (lines 148-174). `none` stands for the
call on an empty list, which the driver never makes. -/
def reversePostOrder {B : Type} [DecidableEq B] (cfg : CFG B) (a : Analysis B)
    (s : State B) : Option (State B) :=
  match s.worklist with
  | [] => none
  | curNode :: q =>
    let inp1 : B → BitVector :=
      match cfg.pred curNode with
      | [] => s.inp
      | p :: ps => setVec s.inp curNode (meetFold a s.out p ps)
    let newOut := a.transfer curNode (inp1 curNode)
    if newOut ≠ s.out curNode then
      some ⟨inp1, setVec s.out curNode newOut, q ++ cfg.succ curNode⟩
    else
      some ⟨inp1, s.out, q⟩

/-- Backward step `postOrder` (lines 176-205). -/
def postOrder {B : Type} [DecidableEq B] (cfg : CFG B) (a : Analysis B)
    (s : State B) : Option (State B) :=
  match s.worklist with
  | [] => none
  | curNode :: q =>
    let out1 : B → BitVector :=
      match cfg.succ curNode with
      | [] => setVec s.out curNode (a.getBoundaryCondition (s.out curNode))
      | x :: xs => setVec s.out curNode (meetFold a s.inp x xs)
    let newIn := a.transfer curNode (out1 curNode)
    if newIn ≠ s.inp curNode then
      some ⟨setVec s.inp curNode newIn, out1, q ++ cfg.pred curNode⟩
    else
      some ⟨s.inp, out1, q⟩

/-- Body of the `while` loop of `runOnFunction` (lines 108-112). -/
def schedulerStep {B : Type} [DecidableEq B] (forward : Bool) (cfg : CFG B) (a : Analysis B)
    (s : State B) : Option (State B) :=
  if forward then reversePostOrder cfg a s else postOrder cfg a s

/-- Exactly `n` iterations of the loop body; `none` when the worklist is
empty before the `n`-th iteration. -/
def runSteps {B : Type} [DecidableEq B] (forward : Bool) (cfg : CFG B) (a : Analysis B) :
    Nat → State B → Option (State B)
  | 0, s => some s
  | n + 1, s => (schedulerStep forward cfg a s).bind (runSteps forward cfg a n)

/-- The `while (!worklist->empty())` loop (lines 107-113) with a bound on the
number of iterations. -/
def whileLoop {B : Type} [DecidableEq B] (forward : Bool) (cfg : CFG B) (a : Analysis B) :
    Nat → State B → Option (State B)
  | 0, s => if s.worklist.isEmpty then some s else none
  | fuel + 1, s =>
    if s.worklist.isEmpty then some s
    else (schedulerStep forward cfg a s).bind (whileLoop forward cfg a fuel)

/-- State of `runOnFunction` when the `while` loop is entered (lines 67-105),
given the list `seed` that `bfs` produced. -/
def initialState {B : Type} [DecidableEq B] (forward : Bool) (cfg : CFG B) (a : Analysis B)
    (seed : List B) : State B :=
  if forward then
    ⟨setVec (fun _ => a.top) cfg.entry (a.getBoundaryCondition a.top),
      a.initialInteriorPoint, seed⟩
  else
    ⟨a.initialInteriorPoint, fun _ => a.top, seed.reverse⟩

/-- The driver `runOnFunction` (lines 63-117); the result is the state when
the loop exits. -/
def runOnFunction {B : Type} [DecidableEq B] (forward : Bool) (cfg : CFG B) (a : Analysis B)
    (bfsFuel loopFuel : Nat) : Option (State B) :=
  (bfs cfg bfsFuel []).bind fun seed =>
    whileLoop forward cfg a loopFuel (initialState forward cfg a seed)

/-- Number of commits of block `b` (assignments of a differing candidate to
its computed side) during the first `n` iterations from `s`. -/
def commitCount {B : Type} [DecidableEq B] (forward : Bool) (cfg : CFG B) (a : Analysis B)
    (b : B) : Nat → State B → Nat
  | 0, _ => 0
  | n + 1, s =>
    match s.worklist, schedulerStep forward cfg a s with
    | curNode :: _, some s1 =>
      (if curNode = b ∧ (if forward then s1.out b ≠ s.out b else s1.inp b ≠ s.inp b) then 1 else 0)
        + commitCount forward cfg a b n s1
    | _, _ => 0

/-- Number of evaluations of block `b` (iterations that pop `b`) during the
first `n` iterations from `s`. -/
def evalCount {B : Type} [DecidableEq B] (forward : Bool) (cfg : CFG B) (a : Analysis B)
    (b : B) : Nat → State B → Nat
  | 0, _ => 0
  | n + 1, s =>
    match s.worklist, schedulerStep forward cfg a s with
    | curNode :: _, some s1 =>
      (if curNode = b then 1 else 0) + evalCount forward cfg a b n s1
    | _, _ => 0

/-! ## Direction-neutral form of the scheduler step

Both steps do the same work on mirrored data: fold the computed side of the
neighbours `nb` of the popped block into its folded side, apply `transfer`,
and after a commit enqueue the blocks `tg`. The forward step is the instance
`nb = pred`, `tg = succ` on `(in, out)`; the backward step is the instance
`nb = succ`, `tg = pred` on `(out, in)`. A block without neighbours keeps its
folded side in the forward step and gets the boundary condition applied to it
in the backward step; `g` stands for that action. The lemmas
`reversePostOrder_eq_genericStep` and `postOrder_eq_genericStep` below relate
the two steps to this form. -/

/-- Exchange the roles of `in` and `out`. -/
def State.swap {B : Type} (s : State B) : State B := ⟨s.out, s.inp, s.worklist⟩

/-- New content of the folded side of block `b`. -/
def foldedSide {B : Type} (nb : B → List B) (g : BitVector → BitVector) (a : Analysis B)
    (s : State B) (b : B) : BitVector :=
  match nb b with
  | [] => g (s.inp b)
  | p :: ps => meetFold a s.out p ps

/-- One step in direction-neutral form; `inp` is the folded side. -/
def genericStep {B : Type} [DecidableEq B] (nb tg : B → List B) (g : BitVector → BitVector)
    (a : Analysis B) (s : State B) : Option (State B) :=
  match s.worklist with
  | [] => none
  | curNode :: q =>
    let cand := a.transfer curNode (foldedSide nb g a s curNode)
    some ⟨setVec s.inp curNode (foldedSide nb g a s curNode), setVec s.out curNode cand,
      q ++ (if cand ≠ s.out curNode then tg curNode else [])⟩

/-- Exactly `n` steps in direction-neutral form. -/
def genericRun {B : Type} [DecidableEq B] (nb tg : B → List B) (g : BitVector → BitVector)
    (a : Analysis B) : Nat → State B → Option (State B)
  | 0, s => some s
  | n + 1, s => (genericStep nb tg g a s).bind (genericRun nb tg g a n)

/-- Commits of block `b` during the first `n` steps, direction-neutral form. -/
def genericCommits {B : Type} [DecidableEq B] (nb tg : B → List B) (g : BitVector → BitVector)
    (a : Analysis B) (b : B) : Nat → State B → Nat
  | 0, _ => 0
  | n + 1, s =>
    match s.worklist, genericStep nb tg g a s with
    | curNode :: _, some s1 =>
      (if curNode = b ∧ s1.out b ≠ s.out b then 1 else 0) + genericCommits nb tg g a b n s1
    | _, _ => 0

/-! ## Conditions on the analysis -/

/-- The monotone "may" contract on vectors of length `h`: `top` has length
`h`, the boundary condition and `transfer` keep that length, `meet` is bitwise
OR, every `transfer` is monotone for bitwise inclusion and every initial
interior point is the all-zero vector. -/
structure MonotoneContract {B : Type} (h : Nat) (a : Analysis B) : Prop where
  top_length : a.top.length = h
  boundary_length : ∀ v : BitVector, v.length = h → (a.getBoundaryCondition v).length = h
  meet_or : a.meet = bvOr
  interior_zero : ∀ b : B, a.initialInteriorPoint b = zeros h
  transfer_length : ∀ (b : B) (v : BitVector), v.length = h → (a.transfer b v).length = h
  transfer_mono : ∀ (b : B) (v w : BitVector), v.length = h → w.length = h →
    bvLe v w = true → bvLe (a.transfer b v) (a.transfer b w) = true

/-- Applying the boundary condition twice to a vector of length `h` gives the
same as applying it once; every constant assignment is such. -/
def IdempotentBoundary {B : Type} (h : Nat) (a : Analysis B) : Prop :=
  ∀ v : BitVector, v.length = h →
    a.getBoundaryCondition (a.getBoundaryCondition v) = a.getBoundaryCondition v

/-- Block `b` satisfies its two equations in state `s`, direction-neutral
form: the computed side is `transfer` of the folded side, and the folded side
is the fold over the neighbours when there are any. -/
def Solved {B : Type} (nb : B → List B) (a : Analysis B) (s : State B) (b : B) : Prop :=
  s.out b = a.transfer b (s.inp b) ∧
    ∀ (p : B) (ps : List B), nb b = p :: ps → s.inp b = meetFold a s.out p ps

/-- Invariant of a run that started with worklist `wl0` and folded side `x0`:
a seeded block that is not waiting in the worklist is solved, and the folded
side of a block without neighbours is an iterate of `g` on its initial value,
a proper one once the block is seeded and not waiting. -/
def FixInv {B : Type} (nb : B → List B) (g : BitVector → BitVector) (a : Analysis B)
    (wl0 : List B) (x0 : B → BitVector) (s : State B) : Prop :=
  (∀ b ∈ wl0, b ∉ s.worklist → Solved nb a s b) ∧
    ∀ b, nb b = [] → ∃ k : Nat, s.inp b = g^[k] (x0 b) ∧ (b ∈ wl0 → b ∉ s.worklist → 0 < k)

/-- What the termination argument needs of the direction-neutral step on
vectors of length `h`: `meet` is bitwise OR, `transfer` keeps the length and is
monotone, `g` keeps the length and is idempotent. -/
structure StepContract {B : Type} (h : Nat) (g : BitVector → BitVector) (a : Analysis B) :
    Prop where
  meet_or : a.meet = bvOr
  transfer_length : ∀ (b : B) (v : BitVector), v.length = h → (a.transfer b v).length = h
  transfer_mono : ∀ (b : B) (v w : BitVector), v.length = h → w.length = h →
    bvLe v w = true → bvLe (a.transfer b v) (a.transfer b w) = true
  g_length : ∀ v : BitVector, v.length = h → (g v).length = h
  g_idem : ∀ v : BitVector, v.length = h → g (g v) = g v

/-- Invariant of a monotone run: every vector has length `h` and the computed
side of every block lies below the candidate a step would compute for it. -/
def MonoInv {B : Type} (h : Nat) (nb : B → List B) (g : BitVector → BitVector)
    (a : Analysis B) (s : State B) : Prop :=
  (∀ b, (s.inp b).length = h ∧ (s.out b).length = h) ∧
    ∀ b, bvLe (s.out b) (a.transfer b (foldedSide nb g a s b)) = true

/-- Number of bits the computed sides can still gain. -/
def slack {B : Type} [Fintype B] (h : Nat) (s : State B) : Nat :=
  Finset.univ.sum (fun b => h - popcount (s.out b))

/-- Termination measure of a monotone run; `d` bounds the number of blocks a
commit enqueues. -/
def potential {B : Type} [Fintype B] (h d : Nat) (s : State B) : Nat :=
  s.worklist.length + (d + 1) * slack h s

/-- Invariant of a run whose worklist stays inside the set `E`: the vectors
of the blocks outside `E` keep their initial values `x0`, `y0`. -/
def FrameInv {B : Type} (E : B → Prop) (x0 y0 : B → BitVector) (s : State B) : Prop :=
  (∀ b ∈ s.worklist, E b) ∧ ∀ b, ¬ E b → s.inp b = x0 b ∧ s.out b = y0 b

/-- Invariant of a monotone forward-form run compared with a state `S` that
solves every block of `E`: the computed sides stay below those of `S`, and the
folded side of a block without neighbours is the one of `S`. -/
def DomInv {B : Type} (h : Nat) (nb : B → List B) (a : Analysis B) (E : B → Prop)
    (S : State B) (s : State B) : Prop :=
  (∀ b ∈ s.worklist, E b) ∧ MonoInv h nb id a s ∧
    (∀ b, bvLe (s.out b) (S.out b) = true) ∧ ∀ b, nb b = [] → s.inp b = S.inp b

/-- The analysis `a` with another vector in the place of `top`. -/
def withTop {B : Type} (a : Analysis B) (t : BitVector) : Analysis B :=
  { a with top := t }

/-! ## Termination measure of the seeding loop -/

/-- Number of blocks not yet marked in `visited`. -/
def unvisitedCount {B : Type} [Fintype B] (visited : B → Bool) : Nat :=
  (Finset.univ.filter (fun b => visited b = false)).card

/-- Weight of a queue entry of `bfs`: with `u` blocks unmarked and at most `d`
successors per block, an unmarked entry weighs `(d + 1) ^ (2 u)` and a marked
one `(d + 1) ^ (2 u + 1)`. -/
def queueWeight {B : Type} [Fintype B] (d : Nat) (visited : B → Bool) (x : B) : Nat :=
  (d + 1) ^ (2 * unvisitedCount visited + (if visited x = true then 1 else 0))

/-- Total weight of the queue of `bfs`. -/
def queuePotential {B : Type} [Fintype B] (d : Nat) (visited : B → Bool) (l : List B) : Nat :=
  (l.map (queueWeight d visited)).sum

/-! ## Example graphs -/

/-- The diamond `entry → {A, B} → exit` with blocks `0, 1, 2, 3`. -/
def diamond : CFG (Fin 4) where
  entry := 0
  succ := fun b => if b = 0 then [1, 2] else if b = 3 then [] else [3]
  pred := fun b => if b = 0 then [] else if b = 3 then [1, 2] else [0]

/-- A function with the single block `()`, which is entry and exit. -/
def singleBlock : CFG Unit where
  entry := ()
  succ := fun _ => []
  pred := fun _ => []

/-- The loop `entry → L`, `L → L`, `L → exit` with blocks `0, 1, 2`; the two
flags choose the enumeration order of the successors and of the predecessors
of `L`. -/
def selfLoop (succSwap predSwap : Bool) : CFG (Fin 3) where
  entry := 0
  succ := fun b =>
    if b = 0 then [1] else if b = 1 then (if succSwap then [2, 1] else [1, 2]) else []
  pred := fun b =>
    if b = 0 then [] else if b = 1 then (if predSwap then [1, 0] else [0, 1]) else [1]

/-- A "may" analysis on vectors of length `h`: meet is bitwise OR, interior
points start at zero, the boundary value is `bnd` and every block adds the bits
`gen b` to what flows in. -/
def genAnalysis {B : Type} (h : Nat) (bnd : BitVector) (gen : B → BitVector) : Analysis B where
  top := zeros h
  getBoundaryCondition := fun _ => bnd
  meet := bvOr
  initialInteriorPoint := fun _ => zeros h
  transfer := fun b v => bvOr v (gen b)

/-- Decidable comparison of the result of a run with an expected state on a
list `bs` of blocks. -/
def sameState {B : Type} [DecidableEq B] (bs : List B) (o : Option (State B)) (t : State B) :
    Bool :=
  match o with
  | none => false
  | some s =>
    bs.all (fun b => decide (s.inp b = t.inp b) && decide (s.out b = t.out b))
      && decide (s.worklist = t.worklist)

/-- In the self-loop graph, the next content of `in[L]` when `out[entry]` is
`A` and the current content is `v`: `A | transfer(L, v)`. -/
def loopUpdate (a : Analysis (Fin 3)) (A v : BitVector) : BitVector :=
  bvOr A (a.transfer 1 v)

/-- Invariant of a forward run on the self-loop graph after the entry block
has been evaluated, where `e` counts the evaluations of `L` so far: the entry
block is never enqueued again, `out[entry]` is `A`, and after `e > 0`
evaluations `in[L]` is the `(e - 1)`-fold update of `A`. -/
def LoopInv (a : Analysis (Fin 3)) (A : BitVector) (e : Nat) (s : State (Fin 3)) : Prop :=
  s.out 0 = A ∧ (∀ b ∈ s.worklist, b ≠ 0) ∧ (e = 0 → s.out 1 = zeros 2) ∧
    (0 < e → s.inp 1 = (loopUpdate a A)^[e - 1] A ∧ s.out 1 = a.transfer 1 (s.inp 1))

/-- The loop without exit `entry → L`, `L → L` with blocks `0, 1`. -/
def loopOnly : CFG (Fin 2) where
  entry := 0
  succ := fun _ => [1]
  pred := fun b => if b = 0 then [] else [0, 1]

/-- An analysis on 1-bit vectors whose transfer is not monotone: every block
complements what flows in. Meet is bitwise OR, interior points start at zero
and the boundary condition assigns the constant `[true]`. -/
def complementAnalysis : Analysis (Fin 2) where
  top := zeros 1
  getBoundaryCondition := fun _ => [true]
  meet := bvOr
  initialInteriorPoint := fun _ => zeros 1
  transfer := fun _ v => bvFlip v

/-- State of the forward run of `complementAnalysis` on `loopOnly` after two
iterations; the run returns to it every 2 iterations. -/
def complementCycleState : State (Fin 2) where
  inp := fun b => if b = 0 then [true] else [false]
  out := fun b => if b = 0 then [false] else [true]
  worklist := [1]

/-- A function with a block that cannot be reached from the entry: `0 → 1`
and the dead block `2 → 1`. -/
def deadBlock : CFG (Fin 3) where
  entry := 0
  succ := fun b => if b = 1 then [] else [1]
  pred := fun b => if b = 1 then [0, 2] else []

/-- A function whose last block in breadth-first order is not an exit:
`0 → {1, 2}`, `2 → 1`, and `1` is the exit. -/
def lateBranch : CFG (Fin 3) where
  entry := 0
  succ := fun b => if b = 0 then [1, 2] else if b = 2 then [1] else []
  pred := fun b => if b = 1 then [0, 2] else if b = 2 then [0] else []

/-! ## Bit vectors -/

theorem bvLe_length : ∀ {x y : BitVector}, bvLe x y = true → x.length = y.length
  | [], [], _ => rfl
  | [], _ :: _, h => by simp [bvLe] at h
  | _ :: _, [], h => by simp [bvLe] at h
  | _ :: xs, _ :: ys, h => by
    simp only [bvLe, Bool.and_eq_true] at h
    simp [bvLe_length h.2]

theorem bvLe_refl : ∀ x : BitVector, bvLe x x = true
  | [] => rfl
  | x :: xs => by cases x <;> simp [bvLe, bvLe_refl xs]

theorem bvLe_trans : ∀ {x y z : BitVector}, bvLe x y = true → bvLe y z = true → bvLe x z = true
  | [], [], [], _, _ => rfl
  | [], [], _ :: _, _, h => by simp [bvLe] at h
  | [], _ :: _, _, h, _ => by simp [bvLe] at h
  | _ :: _, [], _, h, _ => by simp [bvLe] at h
  | _ :: _, _ :: _, [], _, h => by simp [bvLe] at h
  | x :: xs, y :: ys, z :: zs, h1, h2 => by
    simp only [bvLe, Bool.and_eq_true] at h1 h2 ⊢
    refine ⟨?_, bvLe_trans h1.2 h2.2⟩
    have a := h1.1
    have b := h2.1
    cases x <;> cases y <;> cases z <;> simp_all

theorem bvLe_antisymm : ∀ {x y : BitVector}, bvLe x y = true → bvLe y x = true → x = y
  | [], [], _, _ => rfl
  | [], _ :: _, h, _ => by simp [bvLe] at h
  | _ :: _, [], h, _ => by simp [bvLe] at h
  | x :: xs, y :: ys, h1, h2 => by
    simp only [bvLe, Bool.and_eq_true] at h1 h2
    have t := bvLe_antisymm h1.2 h2.2
    have a := h1.1
    have b := h2.1
    cases x <;> cases y <;> simp_all

theorem zeros_length (h : Nat) : (zeros h).length = h := by simp [zeros]

theorem zeros_le : ∀ (h : Nat) (y : BitVector), y.length = h → bvLe (zeros h) y = true
  | 0, [], _ => rfl
  | 0, _ :: _, h => by simp at h
  | _ + 1, [], h => by simp at h
  | n + 1, y :: ys, h => by
    have := zeros_le n ys (by simpa using h)
    simp only [zeros] at this
    simp [zeros, List.replicate_succ, bvLe, this]

theorem bvOr_length : ∀ {h : Nat} {x y : BitVector}, x.length = h → y.length = h →
    (bvOr x y).length = h
  | _, [], _, _, hy => by simpa [bvOr] using hy
  | _, _ :: _, [], hx, _ => by simpa [bvOr] using hx
  | 0, _ :: _, _ :: _, hx, _ => by simp at hx
  | n + 1, _ :: xs, _ :: ys, hx, hy => by
    have := @bvOr_length n xs ys (by simpa using hx) (by simpa using hy)
    simp [bvOr, this]

theorem bvOr_mono : ∀ {x x1 y y1 : BitVector}, bvLe x x1 = true → bvLe y y1 = true →
    bvLe (bvOr x y) (bvOr x1 y1) = true
  | [], [], _, _, _, h => by simpa [bvOr] using h
  | [], _ :: _, _, _, h, _ => by simp [bvLe] at h
  | _ :: _, [], _, _, h, _ => by simp [bvLe] at h
  | _ :: _, _ :: _, [], [], h, _ => by simpa [bvOr] using h
  | _ :: _, _ :: _, [], _ :: _, _, h => by simp [bvLe] at h
  | _ :: _, _ :: _, _ :: _, [], _, h => by simp [bvLe] at h
  | x :: xs, x1 :: xs1, y :: ys, y1 :: ys1, h1, h2 => by
    simp only [bvLe, Bool.and_eq_true, bvOr] at h1 h2 ⊢
    refine ⟨?_, bvOr_mono h1.2 h2.2⟩
    have a := h1.1
    have b := h2.1
    cases x <;> cases x1 <;> cases y <;> cases y1 <;> simp_all

theorem bvOr_comm : ∀ x y : BitVector, bvOr x y = bvOr y x
  | [], [] => rfl
  | [], _ :: _ => rfl
  | _ :: _, [] => rfl
  | x :: xs, y :: ys => by simp [bvOr, bvOr_comm xs ys, Bool.or_comm]

theorem popcount_le_length (v : BitVector) : popcount v ≤ v.length := List.count_le_length _ _

theorem popcount_lt : ∀ {x y : BitVector}, bvLe x y = true → x ≠ y → popcount x < popcount y
  | [], [], _, h => absurd rfl h
  | [], _ :: _, h, _ => by simp [bvLe] at h
  | _ :: _, [], h, _ => by simp [bvLe] at h
  | x :: xs, y :: ys, h, hne => by
    simp only [bvLe, Bool.and_eq_true] at h
    have a := h.1
    by_cases e : xs = ys
    · subst e
      cases x <;> cases y <;> simp_all [popcount]
    · have := popcount_lt h.2 e
      simp only [popcount] at this ⊢
      cases x <;> cases y <;> simp_all [List.count_cons]
      omega

theorem popcount_mono {x y : BitVector} (h : bvLe x y = true) : popcount x ≤ popcount y := by
  by_cases e : x = y
  · subst e; exact le_refl _
  · exact le_of_lt (popcount_lt h e)

/-! ## The two steps as instances of the direction-neutral step -/

section Bridge

variable {B : Type} [DecidableEq B]

theorem setVec_same (m : B → BitVector) (b : B) (v : BitVector) : setVec m b v b = v := by
  simp [setVec]

theorem setVec_other (m : B → BitVector) {b c : B} (v : BitVector) (h : c ≠ b) :
    setVec m b v c = m c := by
  simp [setVec, h]

theorem setVec_self (m : B → BitVector) (b : B) : setVec m b (m b) = m := by
  funext c
  by_cases h : c = b
  · subst h; simp [setVec]
  · simp [setVec, h]

omit [DecidableEq B] in
theorem foldl_meet_congr (a : Analysis B) {m m1 : B → BitVector} :
    ∀ (ps : List B) (acc : BitVector), (∀ x ∈ ps, m x = m1 x) →
      ps.foldl (fun acc x => a.meet acc (m x)) acc = ps.foldl (fun acc x => a.meet acc (m1 x)) acc
  | [], _, _ => rfl
  | y :: ys, acc, h => by
    simp only [List.foldl_cons]
    rw [h y (List.mem_cons_self _ _)]
    exact foldl_meet_congr a ys _ (fun x hx => h x (List.mem_cons_of_mem _ hx))

omit [DecidableEq B] in
theorem meetFold_congr (a : Analysis B) {m m1 : B → BitVector} (p : B) (ps : List B)
    (h : ∀ x ∈ p :: ps, m x = m1 x) : meetFold a m p ps = meetFold a m1 p ps := by
  unfold meetFold
  rw [h p (List.mem_cons_self _ _)]
  exact foldl_meet_congr a ps _ (fun x hx => h x (List.mem_cons_of_mem _ hx))

omit [DecidableEq B] in
theorem swap_swap (s : State B) : s.swap.swap = s := rfl

theorem reversePostOrder_eq_genericStep (cfg : CFG B) (a : Analysis B) (s : State B) :
    reversePostOrder cfg a s = genericStep cfg.pred cfg.succ id a s := by
  unfold reversePostOrder genericStep foldedSide
  cases hw : s.worklist with
  | nil => rfl
  | cons cur q =>
    cases hp : cfg.pred cur with
    | nil =>
      simp only [hp, id, setVec_self]
      by_cases hc : a.transfer cur (s.inp cur) = s.out cur
      · simp [hc, setVec_self]
      · simp [hc]
    | cons p ps =>
      simp only [hp, setVec_same]
      by_cases hc : a.transfer cur (meetFold a s.out p ps) = s.out cur
      · simp [hc, setVec_self]
      · simp [hc]

theorem postOrder_eq_genericStep (cfg : CFG B) (a : Analysis B) (s : State B) :
    postOrder cfg a s =
      (genericStep cfg.succ cfg.pred a.getBoundaryCondition a s.swap).map State.swap := by
  unfold postOrder genericStep foldedSide
  cases hw : s.worklist with
  | nil => simp [State.swap, hw]
  | cons cur q =>
    cases hp : cfg.succ cur with
    | nil =>
      simp only [State.swap, hw, hp, setVec_same, Option.map_some']
      by_cases hc : a.transfer cur (a.getBoundaryCondition (s.out cur)) = s.inp cur
      · simp [hc, setVec_self]
      · simp [hc]
    | cons p ps =>
      simp only [State.swap, hw, hp, setVec_same, Option.map_some']
      by_cases hc : a.transfer cur (meetFold a s.inp p ps) = s.inp cur
      · simp [hc, setVec_self]
      · simp [hc]

theorem runSteps_forward (cfg : CFG B) (a : Analysis B) (n : Nat) (s : State B) :
    runSteps true cfg a n s = genericRun cfg.pred cfg.succ id a n s := by
  induction n generalizing s with
  | zero => rfl
  | succ n ih =>
    simp only [runSteps, genericRun, schedulerStep, if_true, reversePostOrder_eq_genericStep]
    cases genericStep cfg.pred cfg.succ id a s with
    | none => rfl
    | some s1 => simp [ih]

theorem runSteps_backward (cfg : CFG B) (a : Analysis B) (n : Nat) (s : State B) :
    runSteps false cfg a n s =
      (genericRun cfg.succ cfg.pred a.getBoundaryCondition a n s.swap).map State.swap := by
  induction n generalizing s with
  | zero => rfl
  | succ n ih =>
    simp only [runSteps, genericRun, schedulerStep, postOrder_eq_genericStep]
    cases genericStep cfg.succ cfg.pred a.getBoundaryCondition a s.swap with
    | none => rfl
    | some s1 => simp [ih, swap_swap]

theorem genericStep_cons (nb tg : B → List B) (g : BitVector → BitVector) (a : Analysis B)
    (s : State B) {cur : B} {q : List B} (hw : s.worklist = cur :: q) :
    genericStep nb tg g a s =
      some ⟨setVec s.inp cur (foldedSide nb g a s cur),
        setVec s.out cur (a.transfer cur (foldedSide nb g a s cur)),
        q ++ (if a.transfer cur (foldedSide nb g a s cur) ≠ s.out cur then tg cur else [])⟩ := by
  simp [genericStep, hw]

theorem genericStep_nil (nb tg : B → List B) (g : BitVector → BitVector) (a : Analysis B)
    (s : State B) (hw : s.worklist = []) : genericStep nb tg g a s = none := by
  simp [genericStep, hw]

/-- An invariant of the step is an invariant of every run. -/
theorem genericRun_invariant (nb tg : B → List B) (g : BitVector → BitVector) (a : Analysis B)
    (P : State B → Prop)
    (hstep : ∀ s s1, P s → genericStep nb tg g a s = some s1 → P s1) :
    ∀ (n : Nat) (s s1 : State B), P s → genericRun nb tg g a n s = some s1 → P s1 := by
  intro n
  induction n with
  | zero =>
    intro s s1 hs h
    simp only [genericRun, Option.some.injEq] at h
    exact h ▸ hs
  | succ n ih =>
    intro s s1 hs h
    simp only [genericRun] at h
    cases hst : genericStep nb tg g a s with
    | none => simp [hst] at h
    | some s2 =>
      rw [hst] at h
      exact ih s2 s1 (hstep s s2 hs hst) h

end Bridge

/-! ## Seeding reaches every reachable block -/

section Seeding

variable {B : Type} [DecidableEq B]

theorem bfsLoop_closed (cfg : CFG B) :
    ∀ (fuel : Nat) (visited : B → Bool) (l wl res : List B),
      bfsLoop cfg fuel visited l wl = some res →
      (∀ x, visited x = true → x ∈ wl) →
      (∀ x ∈ wl, ∀ y ∈ cfg.succ x, y ∈ wl ∨ y ∈ l) →
      (∀ x, x ∈ wl ∨ x ∈ l → x ∈ res) ∧ (∀ x ∈ res, ∀ y ∈ cfg.succ x, y ∈ res) := by
  intro fuel
  induction fuel with
  | zero =>
    intro visited l wl res h hv hcl
    cases l with
    | nil =>
      simp only [bfsLoop, Option.some.injEq] at h
      subst h
      exact ⟨fun x hx => hx.elim id (by simp), fun x hx y hy => (hcl x hx y hy).elim id (by simp)⟩
    | cons c l => simp [bfsLoop] at h
  | succ fuel ih =>
    intro visited l wl res h hv hcl
    cases l with
    | nil =>
      simp only [bfsLoop, Option.some.injEq] at h
      subst h
      exact ⟨fun x hx => hx.elim id (by simp), fun x hx y hy => (hcl x hx y hy).elim id (by simp)⟩
    | cons c l =>
      simp only [bfsLoop] at h
      have key := ih _ _ _ res h
        (by
          intro x hx
          by_cases e : x = c
          · simp [e]
          · simp only [e, if_false] at hx
            exact List.mem_append_left _ (hv x hx))
        (by
          intro x hx y hy
          rcases List.mem_append.1 hx with hx1 | hx1
          · rcases hcl x hx1 y hy with h1 | h1
            · exact Or.inl (List.mem_append_left _ h1)
            · rcases List.mem_cons.1 h1 with h2 | h2
              · exact Or.inl (by simp [h2])
              · exact Or.inr (List.mem_append_left _ h2)
          · have e : x = c := by simpa using hx1
            subst e
            by_cases hvis : (if y = x then true else visited y) = true
            · by_cases e2 : y = x
              · exact Or.inl (by simp [e2])
              · simp only [e2, if_false] at hvis
                exact Or.inl (List.mem_append_left _ (hv y hvis))
            · refine Or.inr (List.mem_append_right _ ?_)
              rw [List.mem_filter]
              exact ⟨hy, by simpa using hvis⟩)
      refine ⟨?_, key.2⟩
      intro x hx
      apply key.1
      rcases hx with hx | hx
      · exact Or.inl (List.mem_append_left _ hx)
      · rcases List.mem_cons.1 hx with h2 | h2
        · exact Or.inl (by simp [h2])
        · exact Or.inr (List.mem_append_left _ h2)

theorem bfs_entry_mem (cfg : CFG B) {fuel : Nat} {seed : List B}
    (h : bfs cfg fuel [] = some seed) : cfg.entry ∈ seed :=
  (bfsLoop_closed cfg fuel _ _ _ seed h (by simp) (by simp)).1 cfg.entry (Or.inr (by simp))

theorem bfs_succ_closed (cfg : CFG B) {fuel : Nat} {seed : List B}
    (h : bfs cfg fuel [] = some seed) : ∀ x ∈ seed, ∀ y ∈ cfg.succ x, y ∈ seed :=
  (bfsLoop_closed cfg fuel _ _ _ seed h (by simp) (by simp)).2

theorem bfs_reachable_mem (cfg : CFG B) {fuel : Nat} {seed : List B}
    (h : bfs cfg fuel [] = some seed) {b : B} (hb : cfg.Reachable b) : b ∈ seed := by
  unfold CFG.Reachable at hb
  induction hb with
  | refl => exact bfs_entry_mem cfg h
  | tail _ hstep ih => exact bfs_succ_closed cfg h _ ih _ hstep

end Seeding

/-! ## Fixpoint on completion -/

section Fixpoint

variable {B : Type} [DecidableEq B]

theorem genericStep_fixInv (nb tg : B → List B) (g : BitVector → BitVector) (a : Analysis B)
    (hc : ∀ p b : B, p ∈ nb b ↔ b ∈ tg p) (wl0 : List B) (x0 : B → BitVector)
    (s s1 : State B) (hs : FixInv nb g a wl0 x0 s) (hst : genericStep nb tg g a s = some s1) :
    FixInv nb g a wl0 x0 s1 := by
  cases hw : s.worklist with
  | nil => simp [genericStep_nil nb tg g a s hw] at hst
  | cons cur q =>
    rw [genericStep_cons nb tg g a s hw, Option.some.injEq] at hst
    subst hst
    -- a neighbour list that avoids `cur` sees the same computed side after the step
    have hfold : ∀ (b p : B) (ps : List B), nb b = p :: ps →
        b ∉ q ++ (if a.transfer cur (foldedSide nb g a s cur) ≠ s.out cur then tg cur else []) →
        meetFold a (setVec s.out cur (a.transfer cur (foldedSide nb g a s cur))) p ps
          = meetFold a s.out p ps := by
      intro b p ps hnb hnot
      by_cases hcm : a.transfer cur (foldedSide nb g a s cur) = s.out cur
      · rw [hcm, setVec_self]
      · apply meetFold_congr
        intro x hx
        apply setVec_other
        rintro rfl
        apply hnot
        simp only [ne_eq, hcm, not_false_eq_true, if_true]
        exact List.mem_append_right _ ((hc x b).1 (hnb ▸ hx))
    constructor
    · intro b hb hnot
      by_cases e : b = cur
      · subst e
        refine ⟨by simp [setVec_same], ?_⟩
        intro p ps hnb
        simp only [setVec_same]
        rw [hfold b p ps hnb hnot]
        simp [foldedSide, hnb]
      · have hnw : b ∉ s.worklist := by
          rw [hw]
          intro hm
          rcases List.mem_cons.1 hm with h1 | h1
          · exact e h1
          · exact hnot (List.mem_append_left _ h1)
        obtain ⟨h1, h2⟩ := hs.1 b hb hnw
        refine ⟨by simpa [setVec_other _ _ e] using h1, ?_⟩
        intro p ps hnb
        simp only [setVec_other _ _ e]
        rw [hfold b p ps hnb hnot]
        exact h2 p ps hnb
    · intro b hnb
      obtain ⟨k, hk, hpos⟩ := hs.2 b hnb
      by_cases e : b = cur
      · subst e
        refine ⟨k + 1, ?_, fun _ _ => Nat.succ_pos k⟩
        simp only [setVec_same, foldedSide, hnb]
        rw [hk, Function.iterate_succ_apply']
      · refine ⟨k, by simpa [setVec_other _ _ e] using hk, ?_⟩
        intro hb hnot
        apply hpos hb
        rw [hw]
        intro hm
        rcases List.mem_cons.1 hm with h1 | h1
        · exact e h1
        · exact hnot (List.mem_append_left _ h1)

omit [DecidableEq B] in
theorem fixInv_initial (nb : B → List B) (g : BitVector → BitVector) (a : Analysis B)
    (s : State B) : FixInv nb g a s.worklist s.inp s :=
  ⟨fun _ hb hnot => absurd hb hnot, fun _ _ => ⟨0, rfl, fun hb hnot => absurd hb hnot⟩⟩

theorem genericRun_solved (nb tg : B → List B) (g : BitVector → BitVector) (a : Analysis B)
    (hc : ∀ p b : B, p ∈ nb b ↔ b ∈ tg p) {n : Nat} {s sf : State B}
    (hrun : genericRun nb tg g a n s = some sf) (hdone : sf.worklist = []) :
    (∀ b ∈ s.worklist, Solved nb a sf b) ∧
      ∀ b ∈ s.worklist, nb b = [] → ∃ k : Nat, sf.inp b = g^[k + 1] (s.inp b) := by
  have h := genericRun_invariant nb tg g a (FixInv nb g a s.worklist s.inp)
    (genericStep_fixInv nb tg g a hc s.worklist s.inp) n s sf (fixInv_initial nb g a s) hrun
  refine ⟨fun b hb => h.1 b hb (by simp [hdone]), ?_⟩
  intro b hb hnb
  obtain ⟨k, hk, hpos⟩ := h.2 b hnb
  have := hpos hb (by simp [hdone])
  exact ⟨k - 1, by rw [hk]; congr 1; omega⟩

theorem whileLoop_some (forward : Bool) (cfg : CFG B) (a : Analysis B) :
    ∀ (fuel : Nat) (s sf : State B), whileLoop forward cfg a fuel s = some sf →
      ∃ n, n ≤ fuel ∧ runSteps forward cfg a n s = some sf ∧ sf.worklist = [] := by
  intro fuel
  induction fuel with
  | zero =>
    intro s sf h
    simp only [whileLoop] at h
    by_cases hw : s.worklist.isEmpty = true
    · simp only [hw, if_true, Option.some.injEq] at h
      exact ⟨0, le_refl _, by simp [runSteps, h], h ▸ List.isEmpty_iff.1 hw⟩
    · simp [hw] at h
  | succ fuel ih =>
    intro s sf h
    simp only [whileLoop] at h
    by_cases hw : s.worklist.isEmpty = true
    · simp only [hw, if_true, Option.some.injEq] at h
      exact ⟨0, Nat.zero_le _, by simp [runSteps, h], h ▸ List.isEmpty_iff.1 hw⟩
    · simp only [hw] at h
      cases hst : schedulerStep forward cfg a s with
      | none => simp [hst] at h
      | some s1 =>
        simp only [hst, Option.some_bind] at h
        obtain ⟨n, hn, hr, hd⟩ := ih s1 sf h
        exact ⟨n + 1, Nat.succ_le_succ hn, by simp [runSteps, hst, hr], hd⟩

theorem schedulerStep_nil (forward : Bool) (cfg : CFG B) (a : Analysis B) (s : State B)
    (hw : s.worklist = []) : schedulerStep forward cfg a s = none := by
  cases forward
  · simp [schedulerStep, postOrder, hw]
  · simp [schedulerStep, reversePostOrder, hw]

theorem whileLoop_of_runSteps (forward : Bool) (cfg : CFG B) (a : Analysis B) :
    ∀ (n : Nat) (s sf : State B), runSteps forward cfg a n s = some sf → sf.worklist = [] →
      ∀ fuel, n ≤ fuel → whileLoop forward cfg a fuel s = some sf := by
  intro n
  induction n with
  | zero =>
    intro s sf h hd fuel _
    simp only [runSteps, Option.some.injEq] at h
    subst h
    cases fuel <;> simp [whileLoop, hd]
  | succ n ih =>
    intro s sf h hd fuel hf
    simp only [runSteps] at h
    cases hst : schedulerStep forward cfg a s with
    | none => simp [hst] at h
    | some s1 =>
      simp only [hst, Option.some_bind] at h
      cases fuel with
      | zero => omega
      | succ fuel =>
        have hw : ¬ s.worklist.isEmpty = true := by
          intro hw
          rw [schedulerStep_nil forward cfg a s (List.isEmpty_iff.1 hw)] at hst
          cases hst
        simp only [whileLoop, hw, hst, Option.some_bind]
        exact ih s1 sf h hd fuel (by omega)

end Fixpoint

/-! ## Completed runs of `runOnFunction` -/

section Completed

variable {B : Type} [DecidableEq B]

theorem runOnFunction_some (forward : Bool) (cfg : CFG B) (a : Analysis B)
    {bfsFuel loopFuel : Nat} {sf : State B}
    (h : runOnFunction forward cfg a bfsFuel loopFuel = some sf) :
    ∃ seed n, bfs cfg bfsFuel [] = some seed ∧ n ≤ loopFuel ∧
      runSteps forward cfg a n (initialState forward cfg a seed) = some sf ∧
      sf.worklist = [] := by
  unfold runOnFunction at h
  cases hb : bfs cfg bfsFuel [] with
  | none => simp [hb] at h
  | some seed =>
    simp only [hb, Option.some_bind] at h
    obtain ⟨n, hn, hr, hd⟩ := whileLoop_some forward cfg a loopFuel _ sf h
    exact ⟨seed, n, rfl, hn, hr, hd⟩

theorem forward_completed (cfg : CFG B) (hc : cfg.Consistent) (a : Analysis B)
    {seed : List B} {n : Nat} {sf : State B}
    (hr : runSteps true cfg a n (initialState true cfg a seed) = some sf)
    (hd : sf.worklist = []) : ∀ b ∈ seed, Solved cfg.pred a sf b := by
  rw [runSteps_forward] at hr
  exact (genericRun_solved cfg.pred cfg.succ id a hc hr hd).1

theorem backward_completed (cfg : CFG B) (hc : cfg.Consistent) (a : Analysis B)
    {seed : List B} {n : Nat} {sf : State B}
    (hr : runSteps false cfg a n (initialState false cfg a seed) = some sf)
    (hd : sf.worklist = []) :
    (∀ b ∈ seed, Solved cfg.succ a sf.swap b) ∧
      ∀ b ∈ seed, cfg.succ b = [] →
        ∃ k : Nat, sf.out b = a.getBoundaryCondition^[k + 1] a.top := by
  rw [runSteps_backward] at hr
  cases hg : genericRun cfg.succ cfg.pred a.getBoundaryCondition a n
      (initialState false cfg a seed).swap with
  | none => simp [hg] at hr
  | some sg =>
    simp only [hg, Option.map_some', Option.some.injEq] at hr
    subst hr
    have key := genericRun_solved cfg.succ cfg.pred a.getBoundaryCondition a
      (fun p b => (hc b p).symm) hg (by simpa [State.swap] using hd)
    have hmem : ∀ b, b ∈ seed → b ∈ (initialState false cfg a seed).swap.worklist := by
      intro b hb
      simpa [initialState, State.swap] using hb
    refine ⟨fun b hb => key.1 b (hmem b hb), ?_⟩
    intro b hb hex
    obtain ⟨k, hk⟩ := key.2 b (hmem b hb) hex
    exact ⟨k, by simpa [initialState, State.swap] using hk⟩

end Completed

/-! ## Monotone runs -/

section Monotone

variable {B : Type} [DecidableEq B]

omit [DecidableEq B] in
theorem foldl_or_length {h : Nat} (m : B → BitVector) (hm : ∀ x, (m x).length = h) :
    ∀ (ps : List B) (acc : BitVector), acc.length = h →
      (ps.foldl (fun acc x => bvOr acc (m x)) acc).length = h
  | [], _, hacc => hacc
  | y :: ys, acc, hacc => by
    simp only [List.foldl_cons]
    exact foldl_or_length m hm ys _ (bvOr_length hacc (hm y))

omit [DecidableEq B] in
theorem foldl_or_mono (m m1 : B → BitVector) (hm : ∀ x, bvLe (m x) (m1 x) = true) :
    ∀ (ps : List B) (acc acc1 : BitVector), bvLe acc acc1 = true →
      bvLe (ps.foldl (fun acc x => bvOr acc (m x)) acc)
        (ps.foldl (fun acc x => bvOr acc (m1 x)) acc1) = true
  | [], _, _, hacc => hacc
  | y :: ys, acc, acc1, hacc => by
    simp only [List.foldl_cons]
    exact foldl_or_mono m m1 hm ys _ _ (bvOr_mono hacc (hm y))

omit [DecidableEq B] in
theorem foldedSide_length {h : Nat} (nb : B → List B) {g : BitVector → BitVector}
    {a : Analysis B} (hk : StepContract h g a) (s : State B)
    (hl : ∀ b, (s.inp b).length = h ∧ (s.out b).length = h) (b : B) :
    (foldedSide nb g a s b).length = h := by
  unfold foldedSide
  cases nb b with
  | nil => exact hk.g_length _ (hl b).1
  | cons p ps =>
    simp only [meetFold, hk.meet_or]
    exact foldl_or_length s.out (fun x => (hl x).2) ps _ (hl p).2

theorem genericStep_monoInv {h : Nat} (nb tg : B → List B) {g : BitVector → BitVector}
    {a : Analysis B} (hk : StepContract h g a) (s s1 : State B)
    (hs : MonoInv h nb g a s) (hst : genericStep nb tg g a s = some s1) :
    MonoInv h nb g a s1 := by
  cases hw : s.worklist with
  | nil => simp [genericStep_nil nb tg g a s hw] at hst
  | cons cur q =>
    rw [genericStep_cons nb tg g a s hw, Option.some.injEq] at hst
    have hfl := foldedSide_length nb hk s hs.1
    have hcl : (a.transfer cur (foldedSide nb g a s cur)).length = h :=
      hk.transfer_length _ _ (hfl cur)
    have hlen1 : ∀ b, (s1.inp b).length = h ∧ (s1.out b).length = h := by
      intro b
      subst hst
      by_cases e : b = cur
      · subst e
        simp only [setVec_same]
        exact ⟨hfl b, hcl⟩
      · simp only [setVec_other _ _ e]
        exact hs.1 b
    have hup : ∀ b, bvLe (s.out b) (s1.out b) = true := by
      intro b
      subst hst
      by_cases e : b = cur
      · subst e
        simp only [setVec_same]
        exact hs.2 b
      · simp only [setVec_other _ _ e]
        exact bvLe_refl _
    refine ⟨hlen1, ?_⟩
    intro b
    -- the new candidate of `b` dominates the old one, except that for the popped
    -- block without neighbours it is the candidate just stored
    cases hnb : nb b with
    | nil =>
      by_cases e : b = cur
      · subst e
        subst hst
        simp only [foldedSide, hnb, setVec_same]
        rw [hk.g_idem _ (hs.1 b).1]
        exact bvLe_refl _
      · have h1 : foldedSide nb g a s1 b = foldedSide nb g a s b := by
          subst hst
          simp [foldedSide, hnb, setVec_other _ _ e]
        have h2 : s1.out b = s.out b := by
          subst hst
          simp [setVec_other _ _ e]
        rw [h1, h2]
        exact hs.2 b
    | cons p ps =>
      have hmono : bvLe (foldedSide nb g a s b) (foldedSide nb g a s1 b) = true := by
        simp only [foldedSide, hnb, meetFold, hk.meet_or]
        exact foldl_or_mono s.out s1.out hup ps _ _ (hup p)
      have hfl1 := foldedSide_length nb hk s1 hlen1
      have htm := hk.transfer_mono b _ _ (hfl b) (hfl1 b) hmono
      by_cases e : b = cur
      · subst e
        have h2 : s1.out b = a.transfer b (foldedSide nb g a s b) := by
          subst hst
          simp [setVec_same]
        rw [h2]
        exact htm
      · have h2 : s1.out b = s.out b := by
          subst hst
          simp [setVec_other _ _ e]
        rw [h2]
        exact bvLe_trans (hs.2 b) htm

theorem genericRun_monoInv {h : Nat} (nb tg : B → List B) {g : BitVector → BitVector}
    {a : Analysis B} (hk : StepContract h g a) {n : Nat} {s s1 : State B}
    (hs : MonoInv h nb g a s) (hr : genericRun nb tg g a n s = some s1) :
    MonoInv h nb g a s1 :=
  genericRun_invariant nb tg g a (MonoInv h nb g a)
    (fun s s1 => genericStep_monoInv nb tg hk s s1) n s s1 hs hr

theorem slack_commit [Fintype B] (h : Nat) (s : State B) (cur : B) (cand : BitVector)
    (hlen : cand.length = h) (hle : bvLe (s.out cur) cand = true) (hne : cand ≠ s.out cur) :
    slack h ⟨s.inp, setVec s.out cur cand, s.worklist⟩ + 1 ≤ slack h s := by
  unfold slack
  apply Nat.succ_le_of_lt
  apply Finset.sum_lt_sum
  · intro b _
    by_cases e : b = cur
    · subst e
      simp only [setVec_same]
      exact Nat.sub_le_sub_left (popcount_mono hle) h
    · simp [setVec_other _ _ e]
  · refine ⟨cur, Finset.mem_univ _, ?_⟩
    simp only [setVec_same]
    have h1 := popcount_lt hle (Ne.symm hne)
    have h2 := popcount_le_length cand
    omega

omit [DecidableEq B] in
theorem slack_congr [Fintype B] (h : Nat) (s s1 : State B) (he : s1.out = s.out) :
    slack h s1 = slack h s := by
  unfold slack
  rw [he]

theorem genericStep_potential [Fintype B] {h d : Nat} (nb tg : B → List B)
    {g : BitVector → BitVector} {a : Analysis B} (hk : StepContract h g a)
    (hd : ∀ b, (tg b).length ≤ d) (s s1 : State B) (hs : MonoInv h nb g a s)
    (hst : genericStep nb tg g a s = some s1) : potential h d s1 < potential h d s := by
  cases hw : s.worklist with
  | nil => simp [genericStep_nil nb tg g a s hw] at hst
  | cons cur q =>
    rw [genericStep_cons nb tg g a s hw, Option.some.injEq] at hst
    have hcl : (a.transfer cur (foldedSide nb g a s cur)).length = h :=
      hk.transfer_length _ _ (foldedSide_length nb hk s hs.1 cur)
    by_cases hcm : a.transfer cur (foldedSide nb g a s cur) = s.out cur
    · have hsl : slack h s1 = slack h s := by
        apply slack_congr
        subst hst
        simp [hcm, setVec_self]
      have hwl : s1.worklist = q := by
        subst hst
        simp [hcm]
      simp only [potential, hsl, hwl, hw, List.length_cons]
      omega
    · have hsl : slack h s1 + 1 ≤ slack h s := by
        have := slack_commit h s cur _ hcl (hs.2 cur) hcm
        rw [← hst]
        exact this
      have hwl : s1.worklist.length ≤ q.length + d := by
        subst hst
        simp only [ne_eq, hcm, not_false_eq_true, if_true, List.length_append]
        exact Nat.add_le_add_left (hd cur) _
      simp only [potential, hw, List.length_cons]
      have : (d + 1) * (slack h s1 + 1) ≤ (d + 1) * slack h s := Nat.mul_le_mul_left _ hsl
      rw [Nat.mul_add, Nat.mul_one] at this
      omega

theorem genericRun_terminates [Fintype B] {h d : Nat} (nb tg : B → List B)
    {g : BitVector → BitVector} {a : Analysis B} (hk : StepContract h g a)
    (hd : ∀ b, (tg b).length ≤ d) :
    ∀ (N : Nat) (s : State B), MonoInv h nb g a s → potential h d s ≤ N →
      ∃ (n : Nat) (sf : State B), genericRun nb tg g a n s = some sf ∧ sf.worklist = [] := by
  intro N
  induction N with
  | zero =>
    intro s _ hp
    refine ⟨0, s, rfl, ?_⟩
    have : s.worklist.length = 0 := by
      unfold potential at hp
      omega
    exact List.length_eq_zero.1 this
  | succ N ih =>
    intro s hs hp
    cases hw : s.worklist with
    | nil => exact ⟨0, s, rfl, hw⟩
    | cons cur q =>
      have hst := genericStep_cons nb tg g a s hw
      have hlt := genericStep_potential nb tg hk hd s _ hs hst
      obtain ⟨n, sf, hr, hf⟩ := ih _ (genericStep_monoInv nb tg hk s _ hs hst) (by omega)
      exact ⟨n + 1, sf, by simp only [genericRun, hst, Option.some_bind, hr], hf⟩

omit [DecidableEq B] in
theorem degree_bound [Fintype B] (tg : B → List B) : ∃ d : Nat, ∀ b, (tg b).length ≤ d :=
  ⟨Finset.univ.sup (fun c => (tg c).length),
    fun b => @Finset.le_sup Nat B _ _ Finset.univ (fun c => (tg c).length) b (Finset.mem_univ b)⟩

theorem genericCommits_le {h : Nat} (nb tg : B → List B) {g : BitVector → BitVector}
    {a : Analysis B} (hk : StepContract h g a) (b : B) :
    ∀ (n : Nat) (s : State B), MonoInv h nb g a s →
      genericCommits nb tg g a b n s + popcount (s.out b) ≤ h := by
  intro n
  induction n with
  | zero =>
    intro s hs
    simp only [genericCommits, Nat.zero_add]
    exact (hs.1 b).2 ▸ popcount_le_length _
  | succ n ih =>
    intro s hs
    cases hw : s.worklist with
    | nil =>
      simp only [genericCommits, hw, Nat.zero_add]
      exact (hs.1 b).2 ▸ popcount_le_length _
    | cons cur q =>
      have hst := genericStep_cons nb tg g a s hw
      have hs1 := genericStep_monoInv nb tg hk s _ hs hst
      have hrec := ih _ hs1
      simp only [genericCommits, hw, hst]
      by_cases e : cur = b
      · subst e
        simp only [setVec_same, true_and] at hrec ⊢
        by_cases hcm : a.transfer cur (foldedSide nb g a s cur) = s.out cur
        · simp only [hcm, ne_eq, not_true_eq_false, if_false, Nat.zero_add] at hrec ⊢
          exact hrec
        · simp only [ne_eq, hcm, not_false_eq_true, if_true] at hrec ⊢
          have := popcount_lt (hs.2 cur) (Ne.symm hcm)
          omega
      · have hb : b ≠ cur := fun h1 => e h1.symm
        simp only [e, false_and, if_false, Nat.zero_add, setVec_other _ _ hb] at hrec ⊢
        exact hrec

end Monotone

/-! ## The two directions under the monotone contract -/

section Directions

variable {B : Type} [DecidableEq B]

omit [DecidableEq B] in
theorem stepContract_forward {h : Nat} {a : Analysis B} (hm : MonotoneContract h a) :
    StepContract h id a :=
  ⟨hm.meet_or, hm.transfer_length, hm.transfer_mono, fun _ hv => hv, fun _ _ => rfl⟩

omit [DecidableEq B] in
theorem stepContract_backward {h : Nat} {a : Analysis B} (hm : MonotoneContract h a)
    (hi : IdempotentBoundary h a) : StepContract h a.getBoundaryCondition a :=
  ⟨hm.meet_or, hm.transfer_length, hm.transfer_mono, hm.boundary_length, hi⟩

omit [DecidableEq B] in
theorem monoInv_of_zero {h : Nat} {nb : B → List B} {g : BitVector → BitVector}
    {a : Analysis B} (hk : StepContract h g a) (s : State B)
    (hin : ∀ b, (s.inp b).length = h) (hout : ∀ b, s.out b = zeros h) :
    MonoInv h nb g a s := by
  have hl : ∀ b, (s.inp b).length = h ∧ (s.out b).length = h :=
    fun b => ⟨hin b, by rw [hout b]; exact zeros_length h⟩
  refine ⟨hl, fun b => ?_⟩
  rw [hout b]
  exact zeros_le h _ (hk.transfer_length _ _ (foldedSide_length nb hk s hl b))

theorem monoInv_forward_initial {h : Nat} (cfg : CFG B) {a : Analysis B}
    (hm : MonotoneContract h a) (wl : List B) :
    MonoInv h cfg.pred id a (initialState true cfg a wl) := by
  apply monoInv_of_zero (stepContract_forward hm)
  · intro b
    by_cases e : b = cfg.entry
    · simp only [initialState, if_true, e, setVec_same]
      exact hm.boundary_length _ hm.top_length
    · simp only [initialState, if_true, setVec_other _ _ e]
      exact hm.top_length
  · intro b
    simp [initialState, hm.interior_zero]

theorem monoInv_backward_initial {h : Nat} (cfg : CFG B) {a : Analysis B}
    (hm : MonotoneContract h a) (hi : IdempotentBoundary h a) (wl : List B) :
    MonoInv h cfg.succ a.getBoundaryCondition a (initialState false cfg a wl).swap := by
  apply monoInv_of_zero (stepContract_backward hm hi)
  · intro b
    simp [initialState, State.swap, hm.top_length]
  · intro b
    simp [initialState, State.swap, hm.interior_zero]

theorem commitCount_forward (cfg : CFG B) (a : Analysis B) (b : B) :
    ∀ (n : Nat) (s : State B),
      commitCount true cfg a b n s = genericCommits cfg.pred cfg.succ id a b n s := by
  intro n
  induction n with
  | zero => intro s; rfl
  | succ n ih =>
    intro s
    simp only [commitCount, genericCommits, schedulerStep, if_true,
      reversePostOrder_eq_genericStep]
    cases s.worklist with
    | nil => rfl
    | cons cur q =>
      cases genericStep cfg.pred cfg.succ id a s with
      | none => rfl
      | some s1 => simp only [ih]

theorem commitCount_backward (cfg : CFG B) (a : Analysis B) (b : B) :
    ∀ (n : Nat) (s : State B),
      commitCount false cfg a b n s
        = genericCommits cfg.succ cfg.pred a.getBoundaryCondition a b n s.swap := by
  intro n
  induction n with
  | zero => intro s; rfl
  | succ n ih =>
    intro s
    simp only [commitCount, genericCommits, schedulerStep, postOrder_eq_genericStep]
    have hw : s.swap.worklist = s.worklist := rfl
    rw [hw]
    cases s.worklist with
    | nil => rfl
    | cons cur q =>
      cases genericStep cfg.succ cfg.pred a.getBoundaryCondition a s.swap with
      | none => rfl
      | some s1 =>
        simp only [Option.map_some', ih, swap_swap]
        rfl

theorem monotone_terminates [Fintype B] (forward : Bool) (cfg : CFG B) {h : Nat}
    {a : Analysis B} (hm : MonotoneContract h a)
    (hi : forward = false → IdempotentBoundary h a) (wl : List B) :
    ∃ (n : Nat) (sf : State B),
      runSteps forward cfg a n (initialState forward cfg a wl) = some sf ∧ sf.worklist = [] := by
  cases forward with
  | true =>
    obtain ⟨d, hd⟩ := degree_bound cfg.succ
    obtain ⟨n, sf, hr, hf⟩ := genericRun_terminates cfg.pred cfg.succ (stepContract_forward hm)
      hd _ _ (monoInv_forward_initial cfg hm wl) (le_refl _)
    exact ⟨n, sf, by rw [runSteps_forward]; exact hr, hf⟩
  | false =>
    obtain ⟨d, hd⟩ := degree_bound cfg.pred
    obtain ⟨n, sf, hr, hf⟩ := genericRun_terminates cfg.succ cfg.pred
      (stepContract_backward hm (hi rfl)) hd _ _ (monoInv_backward_initial cfg hm (hi rfl) wl)
      (le_refl _)
    exact ⟨n, sf.swap, by rw [runSteps_backward, hr]; rfl, hf⟩

end Directions

/-! ## Runs that return to a state -/

section Cycles

variable {B : Type} [DecidableEq B]

theorem runSteps_add (forward : Bool) (cfg : CFG B) (a : Analysis B) :
    ∀ (m n : Nat) (s : State B),
      runSteps forward cfg a (m + n) s
        = (runSteps forward cfg a m s).bind (runSteps forward cfg a n) := by
  intro m
  induction m with
  | zero => intro n s; simp [runSteps]
  | succ m ih =>
    intro n s
    rw [Nat.succ_add]
    simp only [runSteps]
    cases schedulerStep forward cfg a s with
    | none => rfl
    | some s1 => simp only [Option.some_bind, ih]

theorem runSteps_busy (forward : Bool) (cfg : CFG B) (a : Analysis B) {m n : Nat}
    {s sm : State B} (hlt : n < m) (hm : runSteps forward cfg a m s = some sm) :
    ∃ t, runSteps forward cfg a n s = some t ∧ t.worklist ≠ [] := by
  obtain ⟨k, rfl⟩ : ∃ k, m = n + (1 + k) := ⟨m - n - 1, by omega⟩
  rw [runSteps_add] at hm
  cases hn : runSteps forward cfg a n s with
  | none => simp [hn] at hm
  | some t =>
    refine ⟨t, rfl, fun hw => ?_⟩
    rw [hn, Option.some_bind, runSteps_add] at hm
    simp [runSteps, schedulerStep_nil forward cfg a t hw] at hm

theorem runSteps_cycle (forward : Bool) (cfg : CFG B) (a : Analysis B) {k p : Nat}
    {s c : State B} (hk : runSteps forward cfg a k s = some c)
    (hp : runSteps forward cfg a (p + 1) c = some c) :
    ∀ n, ∃ t, runSteps forward cfg a n s = some t ∧ t.worklist ≠ [] := by
  have hrep : ∀ j, runSteps forward cfg a (k + (p + 1) * j) s = some c := by
    intro j
    induction j with
    | zero => simpa using hk
    | succ j ih =>
      rw [Nat.mul_succ, ← Nat.add_assoc, runSteps_add, ih]
      exact hp
  intro n
  refine runSteps_busy forward cfg a ?_ (hrep (n + 1))
  have : n + 1 ≤ (p + 1) * (n + 1) := Nat.le_mul_of_pos_left _ (Nat.succ_pos p)
  omega

theorem sameState_eq {bs : List B} (hbs : ∀ b, b ∈ bs) {o : Option (State B)} {t : State B}
    (h : sameState bs o t = true) : o = some t := by
  cases o with
  | none => simp [sameState] at h
  | some s =>
    simp only [sameState, Bool.and_eq_true, List.all_eq_true, decide_eq_true_eq] at h
    obtain ⟨h1, h2⟩ := h
    cases s with
    | mk i o w =>
      cases t with
      | mk i1 o1 w1 =>
        simp only at h1 h2
        have e1 : i = i1 := funext fun b => (h1 b (hbs b)).1
        have e2 : o = o1 := funext fun b => (h1 b (hbs b)).2
        rw [e1, e2, h2]

end Cycles

/-! ## The example analyses satisfy the monotone contract -/

theorem genAnalysis_monotone {B : Type} (h : Nat) (bnd : BitVector) (gen : B → BitVector)
    (hb : bnd.length = h) (hg : ∀ b, (gen b).length = h) :
    MonotoneContract h (genAnalysis h bnd gen) :=
  ⟨zeros_length h, fun _ _ => hb, rfl, fun _ => rfl,
    fun b _ hv => bvOr_length hv (hg b),
    fun b _ _ _ _ hle => bvOr_mono hle (bvLe_refl (gen b))⟩

theorem genAnalysis_idempotent {B : Type} (h : Nat) (bnd : BitVector) (gen : B → BitVector) :
    IdempotentBoundary h (genAnalysis h bnd gen) :=
  fun _ _ => rfl

/-! ## Independence of the seed order -/

section Confluence

variable {B : Type} [DecidableEq B]

theorem genericStep_frameInv (nb tg : B → List B) (g : BitVector → BitVector) (a : Analysis B)
    (E : B → Prop) (hcl : ∀ b, E b → ∀ c ∈ tg b, E c) (x0 y0 : B → BitVector)
    (s s1 : State B) (hs : FrameInv E x0 y0 s) (hst : genericStep nb tg g a s = some s1) :
    FrameInv E x0 y0 s1 := by
  cases hw : s.worklist with
  | nil => simp [genericStep_nil nb tg g a s hw] at hst
  | cons cur q =>
    rw [genericStep_cons nb tg g a s hw, Option.some.injEq] at hst
    subst hst
    have hcur : E cur := hs.1 cur (by simp [hw])
    constructor
    · intro b hb
      rcases List.mem_append.1 hb with h1 | h1
      · exact hs.1 b (by simp [hw, h1])
      · split_ifs at h1
        · exact hcl cur hcur b h1
        · simp at h1
    · intro b hb
      have e : b ≠ cur := fun h1 => hb (h1 ▸ hcur)
      simpa [setVec_other _ _ e] using hs.2 b hb

theorem genericStep_domInv {h : Nat} (nb tg : B → List B) {a : Analysis B}
    (hk : StepContract h id a) (E : B → Prop) (hcl : ∀ b, E b → ∀ c ∈ tg b, E c)
    (S : State B) (hSl : ∀ b, (S.inp b).length = h ∧ (S.out b).length = h)
    (hS : ∀ b, E b → Solved nb a S b) (s s1 : State B) (hs : DomInv h nb a E S s)
    (hst : genericStep nb tg id a s = some s1) : DomInv h nb a E S s1 := by
  obtain ⟨hwl, hmono, hle, hin⟩ := hs
  have hmono1 := genericStep_monoInv nb tg hk s s1 hmono hst
  cases hw : s.worklist with
  | nil => simp [genericStep_nil nb tg id a s hw] at hst
  | cons cur q =>
    rw [genericStep_cons nb tg id a s hw, Option.some.injEq] at hst
    have hcur : E cur := hwl cur (by simp [hw])
    have hfl := foldedSide_length nb hk s hmono.1
    -- the candidate of the popped block lies below its value in `S`
    have hcand : bvLe (a.transfer cur (foldedSide nb id a s cur)) (S.out cur) = true := by
      rw [(hS cur hcur).1]
      apply hk.transfer_mono _ _ _ (hfl cur) (hSl cur).1
      cases hnb : nb cur with
      | nil =>
        simp only [foldedSide, hnb, id]
        rw [hin cur hnb]
        exact bvLe_refl _
      | cons p ps =>
        rw [(hS cur hcur).2 p ps hnb]
        simp only [foldedSide, hnb, meetFold, hk.meet_or]
        exact foldl_or_mono s.out S.out hle ps _ _ (hle p)
    subst hst
    refine ⟨?_, hmono1, ?_, ?_⟩
    · intro b hb
      rcases List.mem_append.1 hb with h1 | h1
      · exact hwl b (by simp [hw, h1])
      · split_ifs at h1
        · exact hcl cur hcur b h1
        · simp at h1
    · intro b
      by_cases e : b = cur
      · subst e
        simpa [setVec_same] using hcand
      · simpa [setVec_other _ _ e] using hle b
    · intro b hnb
      by_cases e : b = cur
      · subst e
        simpa [setVec_same, foldedSide, hnb] using hin b hnb
      · simpa [setVec_other _ _ e] using hin b hnb

/-- What a completed forward-form run from `(x0, zeros)` with worklist members
`E` establishes. -/
theorem genericRun_final {h : Nat} (nb tg : B → List B) {a : Analysis B}
    (hk : StepContract h id a) (hc : ∀ p b : B, p ∈ nb b ↔ b ∈ tg p) (E : B → Prop)
    (hcl : ∀ b, E b → ∀ c ∈ tg b, E c) {n : Nat} {s sf : State B}
    (hE : ∀ b, b ∈ s.worklist ↔ E b) (hs : MonoInv h nb id a s)
    (hr : genericRun nb tg id a n s = some sf) (hd : sf.worklist = []) :
    (∀ b, (sf.inp b).length = h ∧ (sf.out b).length = h) ∧
    (∀ b, E b → Solved nb a sf b) ∧
    (∀ b, nb b = [] → sf.inp b = s.inp b) ∧
    (∀ b, ¬ E b → sf.inp b = s.inp b ∧ sf.out b = s.out b) := by
  have h1 := genericRun_monoInv nb tg hk hs hr
  have h2 := genericRun_invariant nb tg id a (FixInv nb id a s.worklist s.inp)
    (genericStep_fixInv nb tg id a hc s.worklist s.inp) n s sf (fixInv_initial nb id a s) hr
  have h3 := genericRun_invariant nb tg id a (FrameInv E s.inp s.out)
    (genericStep_frameInv nb tg id a E hcl s.inp s.out) n s sf
    ⟨fun b hb => (hE b).1 hb, fun _ _ => ⟨rfl, rfl⟩⟩ hr
  refine ⟨h1.1, fun b hb => h2.1 b ((hE b).2 hb) (by simp [hd]), ?_, h3.2⟩
  intro b hnb
  obtain ⟨k, hk1, _⟩ := h2.2 b hnb
  rw [hk1, Function.iterate_id]
  rfl

theorem genericRun_confluent [Fintype B] {h : Nat} (nb tg : B → List B) {a : Analysis B}
    (hk : StepContract h id a) (hc : ∀ p b : B, p ∈ nb b ↔ b ∈ tg p) (E : B → Prop)
    (hcl : ∀ b, E b → ∀ c ∈ tg b, E c) (x0 : B → BitVector) (hx0 : ∀ b, (x0 b).length = h)
    (wl1 wl2 : List B) (hE1 : ∀ b, b ∈ wl1 ↔ E b) (hE2 : ∀ b, b ∈ wl2 ↔ E b) :
    ∃ (n1 n2 : Nat) (sf : State B),
      genericRun nb tg id a n1 ⟨x0, fun _ => zeros h, wl1⟩ = some sf ∧
      genericRun nb tg id a n2 ⟨x0, fun _ => zeros h, wl2⟩ = some sf ∧
      sf.worklist = [] := by
  obtain ⟨d, hd⟩ := degree_bound tg
  have hm1 : MonoInv h nb id a ⟨x0, fun _ => zeros h, wl1⟩ :=
    monoInv_of_zero hk _ hx0 (fun _ => rfl)
  have hm2 : MonoInv h nb id a ⟨x0, fun _ => zeros h, wl2⟩ :=
    monoInv_of_zero hk _ hx0 (fun _ => rfl)
  obtain ⟨n1, sf1, hr1, hd1⟩ := genericRun_terminates nb tg hk hd _ _ hm1 (le_refl _)
  obtain ⟨n2, sf2, hr2, hd2⟩ := genericRun_terminates nb tg hk hd _ _ hm2 (le_refl _)
  obtain ⟨hl1, hsol1, hnb1, hfr1⟩ := genericRun_final nb tg hk hc E hcl hE1 hm1 hr1 hd1
  obtain ⟨hl2, hsol2, hnb2, hfr2⟩ := genericRun_final nb tg hk hc E hcl hE2 hm2 hr2 hd2
  -- each final state dominates the other run
  have hdom12 := genericRun_invariant nb tg id a (DomInv h nb a E sf2)
    (genericStep_domInv nb tg hk E hcl sf2 hl2 hsol2) n1 _ sf1
    ⟨fun b hb => (hE1 b).1 hb, hm1, fun b => zeros_le h _ (hl2 b).2,
      fun b hb => (hnb2 b hb).symm⟩ hr1
  have hdom21 := genericRun_invariant nb tg id a (DomInv h nb a E sf1)
    (genericStep_domInv nb tg hk E hcl sf1 hl1 hsol1) n2 _ sf2
    ⟨fun b hb => (hE2 b).1 hb, hm2, fun b => zeros_le h _ (hl1 b).2,
      fun b hb => (hnb1 b hb).symm⟩ hr2
  have hout : sf1.out = sf2.out :=
    funext fun b => bvLe_antisymm (hdom12.2.2.1 b) (hdom21.2.2.1 b)
  have hinp : sf1.inp = sf2.inp := by
    funext b
    by_cases hb : E b
    · cases hnb : nb b with
      | nil => rw [hnb1 b hnb, hnb2 b hnb]
      | cons p ps => rw [(hsol1 b hb).2 p ps hnb, (hsol2 b hb).2 p ps hnb, hout]
    · rw [(hfr1 b hb).1, (hfr2 b hb).1]
  have heq : sf1 = sf2 := by
    cases sf1
    cases sf2
    simp only at hout hinp hd1 hd2
    rw [hout, hinp, hd1, hd2]
  exact ⟨n1, n2, sf1, hr1, heq ▸ hr2, hd1⟩

end Confluence

/-! ## The self-loop graph -/

section SelfLoop

theorem bvOr_zeros_right : ∀ (h : Nat) (v : BitVector), v.length = h → bvOr v (zeros h) = v
  | 0, [], _ => rfl
  | 0, _ :: _, hv => by simp at hv
  | _ + 1, [], hv => by simp at hv
  | n + 1, x :: xs, hv => by
    have := bvOr_zeros_right n xs (by simpa using hv)
    simp only [zeros] at this
    simp [zeros, List.replicate_succ, bvOr, this]

theorem bvLe_bvOr_left : ∀ (x y : BitVector), x.length = y.length → bvLe x (bvOr x y) = true
  | [], [], _ => rfl
  | [], _ :: _, h => by simp at h
  | _ :: _, [], h => by simp at h
  | x :: xs, y :: ys, h => by
    have := bvLe_bvOr_left xs ys (by simpa using h)
    cases x <;> cases y <;> simp [bvLe, bvOr, this]

/-- On 2-bit vectors an increasing monotone iteration is stable from its
second iterate on. -/
theorem iterate_stable (F : BitVector → BitVector)
    (hlen : ∀ v, v.length = 2 → (F v).length = 2)
    (hmono : ∀ v w, v.length = 2 → w.length = 2 → bvLe v w = true → bvLe (F v) (F w) = true)
    (x : BitVector) (hx : x.length = 2) (hinc : bvLe x (F x) = true) :
    ∀ k, F^[k + 2] x = F (F x) := by
  have l1 : (F x).length = 2 := hlen _ hx
  have l2 : (F (F x)).length = 2 := hlen _ l1
  have l3 : (F (F (F x))).length = 2 := hlen _ l2
  have c1 : bvLe (F x) (F (F x)) = true := hmono _ _ hx l1 hinc
  have c2 : bvLe (F (F x)) (F (F (F x))) = true := hmono _ _ l1 l2 c1
  have hfix : F (F (F x)) = F (F x) := by
    by_contra hne
    have h23 : F (F x) ≠ F (F (F x)) := fun h => hne h.symm
    have h12 : F x ≠ F (F x) := fun h => h23 (congrArg F h)
    have h01 : x ≠ F x := fun h => h12 (congrArg F h)
    have p1 := popcount_lt hinc h01
    have p2 := popcount_lt c1 h12
    have p3 := popcount_lt c2 h23
    have p4 := popcount_le_length (F (F (F x)))
    rw [l3] at p4
    omega
  intro k
  induction k with
  | zero => rfl
  | succ k ih => rw [Function.iterate_succ_apply' F (k + 2), ih, hfix]

theorem fin3_cases (b : Fin 3) : b = 0 ∨ b = 1 ∨ b = 2 := by
  revert b
  decide

theorem selfLoop_consistent (sw pw : Bool) : (selfLoop sw pw).Consistent := by
  unfold CFG.Consistent
  cases sw <;> cases pw <;> decide

theorem selfLoop_bfs (sw pw : Bool) : bfs (selfLoop sw pw) 3 [] = some [0, 1, 2] := by
  cases sw <;> cases pw <;> decide

theorem selfLoop_fold {a : Analysis (Fin 3)} (hm : a.meet = bvOr) (sw pw : Bool)
    (s : State (Fin 3)) :
    foldedSide (selfLoop sw pw).pred id a s 1 = bvOr (s.out 0) (s.out 1) := by
  cases pw
  · simp [foldedSide, selfLoop, meetFold, hm]
  · simp [foldedSide, selfLoop, meetFold, hm, bvOr_comm]

theorem selfLoop_step {a : Analysis (Fin 3)} (hm : MonotoneContract 2 a) (sw pw : Bool)
    (A : BitVector) (hA : A.length = 2) (e : Nat) (s s1 : State (Fin 3)) (cur : Fin 3)
    (q : List (Fin 3)) (hw : s.worklist = cur :: q) (hs : LoopInv a A e s)
    (hst : schedulerStep true (selfLoop sw pw) a s = some s1) :
    LoopInv a A (e + if cur = 1 then 1 else 0) s1 := by
  simp only [schedulerStep, if_true, reversePostOrder_eq_genericStep] at hst
  rw [genericStep_cons _ _ id a s hw, Option.some.injEq] at hst
  obtain ⟨h0, hwl, hz, hp⟩ := hs
  have hcur0 : cur ≠ 0 := hwl cur (by simp [hw])
  have hsucc : ∀ b ∈ (selfLoop sw pw).succ cur, b ≠ 0 := by
    rcases fin3_cases cur with rfl | rfl | rfl
    · exact absurd rfl hcur0
    · cases sw <;> cases pw <;> decide
    · cases sw <;> cases pw <;> decide
  have hwl1 : ∀ b ∈ s1.worklist, b ≠ 0 := by
    subst hst
    intro b hb
    rcases List.mem_append.1 hb with h1 | h1
    · exact hwl b (by simp [hw, h1])
    · split_ifs at h1
      · exact hsucc b h1
      · simp at h1
  have hout0 : s1.out 0 = A := by
    subst hst
    dsimp only
    rw [setVec_other _ _ (Ne.symm hcur0)]
    exact h0
  rcases fin3_cases cur with rfl | rfl | rfl
  · exact absurd rfl hcur0
  · -- the loop block is evaluated
    have hin : s1.inp 1 = bvOr A (s.out 1) := by
      subst hst
      dsimp only
      rw [setVec_same, selfLoop_fold hm.meet_or, h0]
    have hout : s1.out 1 = a.transfer 1 (s1.inp 1) := by
      subst hst
      simp [setVec_same]
    refine ⟨hout0, hwl1, fun h => by simp at h, fun _ => ⟨?_, hout⟩⟩
    simp only [if_true, Nat.add_sub_cancel]
    rw [hin]
    rcases Nat.eq_zero_or_pos e with he | he
    · subst he
      rw [hz rfl, bvOr_zeros_right 2 A hA]
      rfl
    · obtain ⟨h1, h2⟩ := hp he
      obtain ⟨k, rfl⟩ : ∃ k, e = k + 1 := ⟨e - 1, by omega⟩
      rw [Function.iterate_succ_apply', h2, h1]
      rfl
  · -- the exit block is evaluated
    have hne : (1 : Fin 3) ≠ 2 := by decide
    have hin : s1.inp 1 = s.inp 1 := by
      subst hst
      dsimp only
      rw [setVec_other _ _ hne]
    have hout : s1.out 1 = s.out 1 := by
      subst hst
      dsimp only
      rw [setVec_other _ _ hne]
    have h21 : ¬ ((2 : Fin 3) = 1) := by decide
    simp only [h21, if_false, Nat.add_zero]
    exact ⟨hout0, hwl1, fun h => by rw [hout]; exact hz h,
      fun h => by rw [hin, hout]; exact hp h⟩

theorem selfLoop_run {a : Analysis (Fin 3)} (hm : MonotoneContract 2 a) (sw pw : Bool)
    (A : BitVector) (hA : A.length = 2) :
    ∀ (n e : Nat) (s t : State (Fin 3)), LoopInv a A e s →
      runSteps true (selfLoop sw pw) a n s = some t →
      LoopInv a A (e + evalCount true (selfLoop sw pw) a 1 n s) t := by
  intro n
  induction n with
  | zero =>
    intro e s t hs hr
    simp only [runSteps, Option.some.injEq] at hr
    subst hr
    simpa [evalCount] using hs
  | succ n ih =>
    intro e s t hs hr
    simp only [runSteps] at hr
    cases hst : schedulerStep true (selfLoop sw pw) a s with
    | none => simp [hst] at hr
    | some s1 =>
      rw [hst, Option.some_bind] at hr
      cases hw : s.worklist with
      | nil => rw [schedulerStep_nil true _ a s hw] at hst; cases hst
      | cons cur q =>
        have h1 := selfLoop_step hm sw pw A hA e s s1 cur q hw hs hst
        have h2 := ih _ s1 t h1 hr
        simp only [evalCount, hw, hst]
        rw [← Nat.add_assoc]
        exact h2

end SelfLoop

/-! ## Further facts about seeding and runs -/

section More

variable {B : Type} [DecidableEq B]

/-- A property that holds of the entry block and passes along successor edges
holds of every block the queue loop outputs. -/
theorem bfsLoop_mem_inv (cfg : CFG B) (P : B → Prop)
    (hstep : ∀ x y, P x → y ∈ cfg.succ x → P y) :
    ∀ (fuel : Nat) (visited : B → Bool) (l wl res : List B),
      bfsLoop cfg fuel visited l wl = some res →
      (∀ x ∈ l, P x) → (∀ x ∈ wl, P x) → ∀ x ∈ res, P x := by
  intro fuel
  induction fuel with
  | zero =>
    intro visited l wl res h hl hwl
    cases l with
    | nil =>
      simp only [bfsLoop, Option.some.injEq] at h
      exact h ▸ hwl
    | cons c l => simp [bfsLoop] at h
  | succ fuel ih =>
    intro visited l wl res h hl hwl
    cases l with
    | nil =>
      simp only [bfsLoop, Option.some.injEq] at h
      exact h ▸ hwl
    | cons c l =>
      simp only [bfsLoop] at h
      have hc : P c := hl c (List.mem_cons_self _ _)
      refine ih _ _ _ res h ?_ ?_
      · intro x hx
        rcases List.mem_append.1 hx with h1 | h1
        · exact hl x (List.mem_cons_of_mem _ h1)
        · exact hstep c x hc (List.mem_filter.1 h1).1
      · intro x hx
        rcases List.mem_append.1 hx with h1 | h1
        · exact hwl x h1
        · have e : x = c := by simpa using h1
          exact e ▸ hc

theorem bfs_mem_inv (cfg : CFG B) (P : B → Prop) (hentry : P cfg.entry)
    (hstep : ∀ x y, P x → y ∈ cfg.succ x → P y) {fuel : Nat} {seed : List B}
    (h : bfs cfg fuel [] = some seed) : ∀ x ∈ seed, P x :=
  bfsLoop_mem_inv cfg P hstep fuel _ _ _ seed h (by simpa using hentry) (by simp)

theorem bfs_mem_reachable (cfg : CFG B) {fuel : Nat} {seed : List B}
    (h : bfs cfg fuel [] = some seed) : ∀ x ∈ seed, cfg.Reachable x :=
  bfs_mem_inv cfg cfg.Reachable Relation.ReflTransGen.refl
    (fun _ _ hx hy => Relation.ReflTransGen.tail hx hy) h

/-- The output of the queue loop extends the worklist it was given. -/
theorem bfsLoop_extends (cfg : CFG B) :
    ∀ (fuel : Nat) (visited : B → Bool) (l wl res : List B),
      bfsLoop cfg fuel visited l wl = some res → ∃ rest, res = wl ++ l.take 1 ++ rest := by
  intro fuel
  induction fuel with
  | zero =>
    intro visited l wl res h
    cases l with
    | nil =>
      simp only [bfsLoop, Option.some.injEq] at h
      exact ⟨[], by simp [h]⟩
    | cons c l => simp [bfsLoop] at h
  | succ fuel ih =>
    intro visited l wl res h
    cases l with
    | nil =>
      simp only [bfsLoop, Option.some.injEq] at h
      exact ⟨[], by simp [h]⟩
    | cons c l =>
      simp only [bfsLoop] at h
      obtain ⟨rest, hr⟩ := ih _ _ _ res h
      refine ⟨List.take 1 (l ++ List.filter
        (fun x => !if x = c then true else visited x) (cfg.succ c)) ++ rest, ?_⟩
      rw [hr]
      simp only [List.take_succ_cons, List.take_zero, List.append_assoc]

theorem bfs_head (cfg : CFG B) {fuel : Nat} {seed : List B}
    (h : bfs cfg fuel [] = some seed) : seed.head? = some cfg.entry := by
  obtain ⟨rest, hr⟩ := bfsLoop_extends cfg fuel _ _ _ seed h
  rw [hr]
  rfl

/-- A run whose worklist is never empty makes `runOnFunction` fail for every
fuel. -/
theorem runOnFunction_none_of_busy (forward : Bool) (cfg : CFG B) (a : Analysis B)
    {bfsFuel : Nat} {seed : List B} (hseed : bfs cfg bfsFuel [] = some seed)
    (hbusy : ∀ n : Nat, ∃ t : State B,
      runSteps forward cfg a n (initialState forward cfg a seed) = some t ∧ t.worklist ≠ [])
    (loopFuel : Nat) : runOnFunction forward cfg a bfsFuel loopFuel = none := by
  cases hr : runOnFunction forward cfg a bfsFuel loopFuel with
  | none => rfl
  | some sf =>
    exfalso
    obtain ⟨seed1, n, hs, _, hn, hd⟩ := runOnFunction_some forward cfg a hr
    rw [hseed, Option.some.injEq] at hs
    subst hs
    obtain ⟨t, ht, hne⟩ := hbusy n
    rw [hn, Option.some.injEq] at ht
    exact hne (ht ▸ hd)

/-- In a forward run the vector `in[entry]` of an entry block without
predecessors never changes. -/
theorem forward_entry_inp (cfg : CFG B) (a : Analysis B) (hentry : cfg.pred cfg.entry = [])
    (v : BitVector) :
    ∀ (n : Nat) (s t : State B), s.inp cfg.entry = v →
      runSteps true cfg a n s = some t → t.inp cfg.entry = v := by
  intro n s t hs hr
  rw [runSteps_forward] at hr
  refine genericRun_invariant cfg.pred cfg.succ id a (fun s => s.inp cfg.entry = v) ?_ n s t hs hr
  intro s s1 hs hst
  cases hw : s.worklist with
  | nil => simp [genericStep_nil _ _ id a s hw] at hst
  | cons cur q =>
    rw [genericStep_cons _ _ id a s hw, Option.some.injEq] at hst
    subst hst
    by_cases e : cfg.entry = cur
    · subst e
      simpa [setVec_same, foldedSide, hentry] using hs
    · simpa [setVec_other _ _ e] using hs

end More

/-! ## Frame, repeated evaluation, vector length, placeholders -/

section Frame

variable {B : Type} [DecidableEq B]

omit [DecidableEq B] in
theorem reachable_inv (cfg : CFG B) (P : B → Prop) (hentry : P cfg.entry)
    (hstep : ∀ x y, P x → y ∈ cfg.succ x → P y) {b : B} (hb : cfg.Reachable b) : P b := by
  unfold CFG.Reachable at hb
  induction hb with
  | refl => exact hentry
  | tail _ h ih => exact hstep _ _ ih h

omit [DecidableEq B] in
theorem reachable_has_pred (cfg : CFG B) (hc : cfg.Consistent) {b : B} (hb : cfg.Reachable b)
    (hne : b ≠ cfg.entry) : cfg.pred b ≠ [] := by
  unfold CFG.Reachable at hb
  rcases Relation.ReflTransGen.cases_tail hb with h | ⟨p, _, hp⟩
  · exact absurd h hne
  · intro hnil
    have := (hc p b).2 hp
    rw [hnil] at this
    cases this

/-- One step leaves the vectors of every block but the popped one alone. -/
theorem genericStep_frame (nb tg : B → List B) (g : BitVector → BitVector) (a : Analysis B)
    (s : State B) {cur : B} {q : List B} (hw : s.worklist = cur :: q) :
    ∃ s1 : State B, genericStep nb tg g a s = some s1 ∧
      ∀ c, c ≠ cur → s1.inp c = s.inp c ∧ s1.out c = s.out c :=
  ⟨_, genericStep_cons nb tg g a s hw, fun _ hc => ⟨setVec_other _ _ hc, setVec_other _ _ hc⟩⟩

/-- A step on a block whose two vectors are already what the step computes
only pops the block. -/
theorem genericStep_noop (nb tg : B → List B) (g : BitVector → BitVector) (a : Analysis B)
    (s : State B) {b : B} {q : List B} (hw : s.worklist = b :: q)
    (hv : foldedSide nb g a s b = s.inp b) (hc : a.transfer b (s.inp b) = s.out b) :
    genericStep nb tg g a s = some ⟨s.inp, s.out, q⟩ := by
  rw [genericStep_cons nb tg g a s hw, hv, hc, setVec_self, setVec_self]
  simp

/-- Evaluating a block twice in a row: the second step changes nothing and
only pops the block. -/
theorem genericStep_twice (nb tg : B → List B) (g : BitVector → BitVector) (a : Analysis B)
    (hg : ∀ v, g (g v) = g v) (s : State B) {b : B} {rest : List B}
    (hw : s.worklist = b :: b :: rest) (hb : b ∉ nb b) :
    ∃ s1 s2 : State B, genericStep nb tg g a s = some s1 ∧
      genericStep nb tg g a s1 = some s2 ∧
      s2.inp = s1.inp ∧ s2.out = s1.out ∧ s2.worklist = s1.worklist.tail := by
  have h1 := genericStep_cons nb tg g a s hw
  have hv : foldedSide nb g a
      ⟨setVec s.inp b (foldedSide nb g a s b),
        setVec s.out b (a.transfer b (foldedSide nb g a s b)),
        (b :: rest) ++ (if a.transfer b (foldedSide nb g a s b) ≠ s.out b then tg b else [])⟩ b
      = setVec s.inp b (foldedSide nb g a s b) b := by
    rw [setVec_same]
    unfold foldedSide
    cases hnb : nb b with
    | nil => simp only [setVec_same, hg]
    | cons p ps =>
      apply meetFold_congr
      intro x hx
      apply setVec_other
      rintro rfl
      exact hb (hnb ▸ hx)
  have h2 := genericStep_noop nb tg g a
    ⟨setVec s.inp b (foldedSide nb g a s b),
      setVec s.out b (a.transfer b (foldedSide nb g a s b)),
      (b :: rest) ++ (if a.transfer b (foldedSide nb g a s b) ≠ s.out b then tg b else [])⟩
    (List.cons_append _ _ _) hv (by simp only [setVec_same])
  exact ⟨_, _, h1, h2, rfl, rfl, rfl⟩

end Frame

section Lockstep

variable {B : Type} [DecidableEq B]

theorem evalCount_forward_succ (cfg : CFG B) (a : Analysis B) (b : B) (n : Nat) (s : State B)
    {cur : B} {q : List B} (hw : s.worklist = cur :: q) {s1 : State B}
    (hst : genericStep cfg.pred cfg.succ id a s = some s1) :
    evalCount true cfg a b (n + 1) s = (if cur = b then 1 else 0) + evalCount true cfg a b n s1 := by
  simp only [evalCount, schedulerStep, if_true, reversePostOrder_eq_genericStep, hw, hst]

theorem runSteps_forward_succ (cfg : CFG B) (a : Analysis B) (n : Nat) (s : State B)
    {s1 : State B} (hst : genericStep cfg.pred cfg.succ id a s = some s1) :
    runSteps true cfg a (n + 1) s = runSteps true cfg a n s1 := by
  simp only [runSteps, schedulerStep, if_true, reversePostOrder_eq_genericStep, hst,
    Option.some_bind]

theorem runSteps_succ_some (forward : Bool) (cfg : CFG B) (a : Analysis B) {n : Nat}
    {s t : State B} (hr : runSteps forward cfg a (n + 1) s = some t) :
    ∃ cur q, s.worklist = cur :: q := by
  cases hw : s.worklist with
  | nil => simp [runSteps, schedulerStep_nil forward cfg a s hw] at hr
  | cons cur q => exact ⟨cur, q, rfl⟩

/-- In a forward run whose worklist stays inside a successor-closed set `E`,
a block outside `E` keeps its vectors and is never evaluated. -/
theorem forward_frame (cfg : CFG B) (a : Analysis B) (E : B → Prop)
    (hcl : ∀ x, E x → ∀ y ∈ cfg.succ x, E y) (b : B) (hb : ¬ E b) :
    ∀ (n : Nat) (s t : State B), (∀ c ∈ s.worklist, E c) →
      runSteps true cfg a n s = some t →
      t.inp b = s.inp b ∧ t.out b = s.out b ∧ evalCount true cfg a b n s = 0 := by
  intro n
  induction n with
  | zero =>
    intro s t _ hr
    simp only [runSteps, Option.some.injEq] at hr
    subst hr
    exact ⟨rfl, rfl, rfl⟩
  | succ n ih =>
    intro s t hE hr
    obtain ⟨cur, q, hw⟩ := runSteps_succ_some true cfg a hr
    have hst := genericStep_cons cfg.pred cfg.succ id a s hw
    have hfr := genericStep_frameInv cfg.pred cfg.succ id a E hcl s.inp s.out s _
      ⟨hE, fun _ _ => ⟨rfl, rfl⟩⟩ hst
    rw [runSteps_forward_succ cfg a n s hst] at hr
    obtain ⟨h1, h2, h3⟩ := ih _ t hfr.1 hr
    have hne : cur ≠ b := fun e => hb (e ▸ hE cur (by simp [hw]))
    rw [evalCount_forward_succ cfg a b n s hw hst, h3]
    simp only [hne, if_false, Nat.add_zero, true_and, and_true]
    exact ⟨h1.trans (hfr.2 b hb).1, h2.trans (hfr.2 b hb).2⟩

/-- Two forward runs from states with the same worklist, the same `out` and
the same `in[entry]` proceed in lockstep, provided every block that is ever
popped is the entry or has a predecessor; they agree on `in[b]` wherever they
agreed at the start or `b` has been evaluated. -/
theorem forward_lockstep (cfg : CFG B) (a : Analysis B) (E : B → Prop)
    (hcl : ∀ x, E x → ∀ y ∈ cfg.succ x, E y)
    (hpred : ∀ x, E x → x ≠ cfg.entry → cfg.pred x ≠ []) :
    ∀ (n : Nat) (s s2 t : State B), s2.worklist = s.worklist → s2.out = s.out →
      s2.inp cfg.entry = s.inp cfg.entry → (∀ c ∈ s.worklist, E c) →
      runSteps true cfg a n s = some t →
      ∃ t2 : State B, runSteps true cfg a n s2 = some t2 ∧ t2.worklist = t.worklist ∧
        t2.out = t.out ∧
        ∀ b, (s2.inp b = s.inp b ∨ 0 < evalCount true cfg a b n s) → t2.inp b = t.inp b := by
  intro n
  induction n with
  | zero =>
    intro s s2 t hwl hout _ _ hr
    simp only [runSteps, Option.some.injEq] at hr
    subst hr
    refine ⟨s2, rfl, hwl, hout, fun b hb => ?_⟩
    rcases hb with h | h
    · exact h
    · simp [evalCount] at h
  | succ n ih =>
    intro s s2 t hwl hout hent hE hr
    obtain ⟨cur, q, hw⟩ := runSteps_succ_some true cfg a hr
    have hst := genericStep_cons cfg.pred cfg.succ id a s hw
    have hst2 := genericStep_cons cfg.pred cfg.succ id a s2 (hwl.trans hw)
    have hcur : E cur := hE cur (by simp [hw])
    -- both runs fold the same value into `in[cur]`
    have hv : foldedSide cfg.pred id a s2 cur = foldedSide cfg.pred id a s cur := by
      unfold foldedSide
      cases hp : cfg.pred cur with
      | nil =>
        by_cases e : cur = cfg.entry
        · simp only [id, e, hent]
        · exact absurd hp (hpred cur hcur e)
      | cons p ps => simp only [hout]
    rw [hv, hout] at hst2
    have hfr := genericStep_frameInv cfg.pred cfg.succ id a E hcl s.inp s.out s _
      ⟨hE, fun _ _ => ⟨rfl, rfl⟩⟩ hst
    rw [runSteps_forward_succ cfg a n s hst] at hr
    obtain ⟨t2, hr2, h1, h2, h3⟩ := ih
      ⟨setVec s.inp cur (foldedSide cfg.pred id a s cur),
        setVec s.out cur (a.transfer cur (foldedSide cfg.pred id a s cur)),
        q ++ (if a.transfer cur (foldedSide cfg.pred id a s cur) ≠ s.out cur
          then cfg.succ cur else [])⟩
      ⟨setVec s2.inp cur (foldedSide cfg.pred id a s cur),
        setVec s.out cur (a.transfer cur (foldedSide cfg.pred id a s cur)),
        q ++ (if a.transfer cur (foldedSide cfg.pred id a s cur) ≠ s.out cur
          then cfg.succ cur else [])⟩ t rfl rfl
      (by
        by_cases e : cfg.entry = cur
        · simp [e, setVec_same]
        · simp [setVec_other _ _ e, hent])
      hfr.1 hr
    refine ⟨t2, by rw [runSteps_forward_succ cfg a n s2 hst2]; exact hr2, h1, h2, ?_⟩
    intro b hb
    apply h3
    rw [evalCount_forward_succ cfg a b n s hw hst] at hb
    by_cases e : b = cur
    · left
      simp [e, setVec_same]
    · rcases hb with h | h
      · left
        simpa [setVec_other _ _ e] using h
      · right
        have hne : ¬ cur = b := fun h1 => e h1.symm
        simp only [hne, if_false, Nat.zero_add] at h
        exact h

/-- The steps do not look at `top`. -/
theorem runSteps_withTop (forward : Bool) (cfg : CFG B) (a : Analysis B) (t : BitVector) :
    ∀ (n : Nat) (s : State B),
      runSteps forward cfg (withTop a t) n s = runSteps forward cfg a n s := by
  intro n
  induction n with
  | zero => intro s; rfl
  | succ n ih =>
    intro s
    have hstep : schedulerStep forward cfg (withTop a t) s = schedulerStep forward cfg a s := rfl
    simp only [runSteps, hstep]
    cases schedulerStep forward cfg a s with
    | none => rfl
    | some s1 => simp only [Option.some_bind, ih]

end Lockstep

/-! ## Vector lengths -/

section Lengths

variable {B : Type} [DecidableEq B]

omit [DecidableEq B] in
theorem meetFold_length (a : Analysis B) (k : Nat)
    (hmeet : ∀ x y : BitVector, x.length = k → y.length = k → (a.meet x y).length = k)
    (m : B → BitVector) (hm : ∀ b, (m b).length = k) (p : B) (ps : List B) :
    (meetFold a m p ps).length = k := by
  unfold meetFold
  have hacc := hm p
  generalize m p = acc at hacc
  induction ps generalizing acc with
  | nil => exact hacc
  | cons y ys ih =>
    simp only [List.foldl_cons]
    exact ih _ (hmeet _ _ hacc (hm y))

theorem genericRun_length (nb tg : B → List B) (g : BitVector → BitVector) (a : Analysis B)
    (k : Nat) (hmeet : ∀ x y : BitVector, x.length = k → y.length = k → (a.meet x y).length = k)
    (htr : ∀ b v, v.length = k → (a.transfer b v).length = k)
    (hg : ∀ v : BitVector, v.length = k → (g v).length = k)
    {n : Nat} {s t : State B} (hs : ∀ b, (s.inp b).length = k ∧ (s.out b).length = k)
    (hr : genericRun nb tg g a n s = some t) :
    ∀ b, (t.inp b).length = k ∧ (t.out b).length = k := by
  refine genericRun_invariant nb tg g a
    (fun s => ∀ b, (s.inp b).length = k ∧ (s.out b).length = k) ?_ n s t hs hr
  intro s s1 hs hst
  cases hw : s.worklist with
  | nil => simp [genericStep_nil nb tg g a s hw] at hst
  | cons cur q =>
    rw [genericStep_cons nb tg g a s hw, Option.some.injEq] at hst
    subst hst
    have hv : ∀ b, (foldedSide nb g a s b).length = k := by
      intro b
      unfold foldedSide
      cases nb b with
      | nil => exact hg _ (hs b).1
      | cons p ps => exact meetFold_length a k hmeet s.out (fun c => (hs c).2) p ps
    intro b
    by_cases e : b = cur
    · subst e
      simp only [setVec_same]
      exact ⟨hv b, htr _ _ (hv b)⟩
    · simp only [setVec_other _ _ e]
      exact hs b

end Lengths

/-! ## The seeding loop terminates -/

section SeedingTerminates

variable {B : Type} [DecidableEq B] [Fintype B]

omit [Fintype B] in
theorem mark_of_visited (visited : B → Bool) (c : B) (hc : visited c = true) :
    (fun b => if b = c then true else visited b) = visited := by
  funext b
  by_cases e : b = c
  · simp [e, hc]
  · simp [e]

theorem unvisitedCount_mark (visited : B → Bool) (c : B) (hc : visited c = false) :
    unvisitedCount (fun b => if b = c then true else visited b) + 1 = unvisitedCount visited := by
  unfold unvisitedCount
  have hmem : c ∈ Finset.univ.filter (fun b => visited b = false) := by
    simp [hc]
  have heq : Finset.univ.filter (fun b => (if b = c then true else visited b) = false)
      = (Finset.univ.filter (fun b => visited b = false)).erase c := by
    ext b
    by_cases e : b = c
    · simp [e]
    · simp [e]
  rw [heq, Finset.card_erase_of_mem hmem]
  have := Finset.card_pos.2 ⟨c, hmem⟩
  omega

omit [DecidableEq B] in
theorem queueWeight_pos (d : Nat) (visited : B → Bool) (x : B) : 0 < queueWeight d visited x :=
  Nat.pos_pow_of_pos _ (Nat.succ_pos d)

theorem queueWeight_mark_le (d : Nat) (visited : B → Bool) (c y : B) :
    queueWeight d (fun b => if b = c then true else visited b) y ≤ queueWeight d visited y := by
  cases hc : visited c with
  | true => rw [mark_of_visited visited c hc]
  | false =>
    have hu := unvisitedCount_mark visited c hc
    unfold queueWeight
    apply Nat.pow_le_pow_right (Nat.succ_pos d)
    split_ifs <;> omega

theorem queuePotential_mark_le (d : Nat) (visited : B → Bool) (c : B) (l : List B) :
    queuePotential d (fun b => if b = c then true else visited b) l
      ≤ queuePotential d visited l := by
  unfold queuePotential
  induction l with
  | nil => simp
  | cons y ys ih =>
    simp only [List.map_cons, List.sum_cons]
    exact Nat.add_le_add (queueWeight_mark_le d visited c y) ih

omit [DecidableEq B] in
theorem queuePotential_unmarked (d : Nat) (visited : B → Bool) (l : List B)
    (hl : ∀ y ∈ l, visited y = false) :
    queuePotential d visited l = l.length * (d + 1) ^ (2 * unvisitedCount visited) := by
  unfold queuePotential
  induction l with
  | nil => simp
  | cons y ys ih =>
    have hw : queueWeight d visited y = (d + 1) ^ (2 * unvisitedCount visited) := by
      simp [queueWeight, hl y (List.mem_cons_self _ _)]
    simp only [List.map_cons, List.sum_cons, List.length_cons]
    rw [ih (fun z hz => hl z (List.mem_cons_of_mem _ hz)), hw, Nat.add_comm]
    exact (Nat.succ_mul _ _).symm

omit [DecidableEq B] in
theorem queuePotential_append (d : Nat) (visited : B → Bool) (l l1 : List B) :
    queuePotential d visited (l ++ l1)
      = queuePotential d visited l + queuePotential d visited l1 := by
  simp [queuePotential]

theorem weight_step (d P : Nat) (hP : 0 < P) : d * P + 1 ≤ P * (d + 1) := by
  have : P * (d + 1) = d * P + P := by ring
  omega

/-- The popped entry outweighs everything its pop pushes. -/
theorem queueWeight_pop (d : Nat) (visited : B → Bool) (c : B) :
    d * (d + 1) ^ (2 * unvisitedCount (fun b => if b = c then true else visited b)) + 1
      ≤ queueWeight d visited c := by
  cases hc : visited c with
  | true =>
    rw [mark_of_visited visited c hc]
    simp only [queueWeight, hc, if_true]
    rw [Nat.pow_succ]
    exact weight_step d _ (Nat.pos_pow_of_pos _ (Nat.succ_pos d))
  | false =>
    have hu := unvisitedCount_mark visited c hc
    simp only [queueWeight, hc, Bool.false_eq_true, if_false, Nat.add_zero]
    rw [← hu]
    generalize unvisitedCount (fun b => if b = c then true else visited b) = u
    have e : 2 * (u + 1) = 2 * u + 1 + 1 := by omega
    rw [e, Nat.pow_succ, Nat.pow_succ]
    have hpos : 0 < (d + 1) ^ (2 * u) := Nat.pos_pow_of_pos _ (Nat.succ_pos d)
    exact le_trans (weight_step d _ hpos) (Nat.le_mul_of_pos_right _ (Nat.succ_pos d))

theorem queuePotential_pop (cfg : CFG B) (d : Nat) (hd : ∀ b, (cfg.succ b).length ≤ d)
    (visited : B → Bool) (c : B) (l : List B) :
    queuePotential d (fun b => if b = c then true else visited b)
        (l ++ (cfg.succ c).filter (fun x => !(if x = c then true else visited x)))
      < queuePotential d visited (c :: l) := by
  rw [queuePotential_append]
  have h1 := queuePotential_mark_le d visited c l
  have h2 := queuePotential_unmarked d (fun b => if b = c then true else visited b)
    ((cfg.succ c).filter (fun x => !(if x = c then true else visited x)))
    (by
      intro y hy
      have := (List.mem_filter.1 hy).2
      simpa using this)
  have h3 : ((cfg.succ c).filter (fun x => !(if x = c then true else visited x))).length ≤ d :=
    le_trans (List.length_filter_le _ _) (hd c)
  have h4 := Nat.mul_le_mul_right
    ((d + 1) ^ (2 * unvisitedCount (fun b => if b = c then true else visited b))) h3
  have h5 := queueWeight_pop d visited c
  have h6 : queuePotential d visited (c :: l)
      = queueWeight d visited c + queuePotential d visited l := by
    simp [queuePotential]
  rw [h6, h2]
  omega

theorem bfsLoop_terminates (cfg : CFG B) (d : Nat) (hd : ∀ b, (cfg.succ b).length ≤ d) :
    ∀ (fuel : Nat) (visited : B → Bool) (l wl : List B),
      queuePotential d visited l ≤ fuel →
      ∃ res, bfsLoop cfg fuel visited l wl = some res := by
  intro fuel
  induction fuel with
  | zero =>
    intro visited l wl hp
    cases l with
    | nil => exact ⟨wl, by simp [bfsLoop]⟩
    | cons c l =>
      exfalso
      have := queueWeight_pos d visited c
      simp only [queuePotential, List.map_cons, List.sum_cons] at hp
      omega
  | succ fuel ih =>
    intro visited l wl hp
    cases l with
    | nil => exact ⟨wl, by simp [bfsLoop]⟩
    | cons c l =>
      simp only [bfsLoop]
      apply ih
      have := queuePotential_pop cfg d hd visited c l
      omega

theorem bfs_terminates_from (cfg : CFG B) :
    ∃ bound : Nat, ∀ fuel, bound ≤ fuel → ∃ seed, bfs cfg fuel [] = some seed := by
  obtain ⟨d, hd⟩ := degree_bound cfg.succ
  exact ⟨queuePotential d (fun _ => false) [cfg.entry],
    fun fuel hf => bfsLoop_terminates cfg d hd fuel _ _ _ hf⟩

end SeedingTerminates

/-! ## Fixpoint theorems -/

/-- C1. Forward fixpoint on completion: when a forward `runOnFunction`
returns, the worklist is empty and every block `b` reachable from the entry
over successor edges satisfies `out[b] = transfer(b, in[b])`, and, when `b`
has a first predecessor `p` and further predecessors `ps`, `in[b]` is the
meet-fold of the final `out` vectors over `p, ps` in enumeration order. -/
theorem forward_fixpoint_on_completion {B : Type} [DecidableEq B] (cfg : CFG B)
    (hc : cfg.Consistent) (a : Analysis B) (bfsFuel loopFuel : Nat) (sf : State B)
    (hrun : runOnFunction true cfg a bfsFuel loopFuel = some sf) (b : B)
    (hb : cfg.Reachable b) :
    sf.worklist = [] ∧ sf.out b = a.transfer b (sf.inp b) ∧
      ∀ (p : B) (ps : List B), cfg.pred b = p :: ps → sf.inp b = meetFold a sf.out p ps := by
  obtain ⟨seed, n, hseed, _, hr, hd⟩ := runOnFunction_some true cfg a hrun
  have h := forward_completed cfg hc a hr hd b (bfs_reachable_mem cfg hseed hb)
  exact ⟨hd, h.1, h.2⟩

/-- Witness for C1 on the diamond: the exit block `3` of a completed forward
run satisfies its transfer equation. -/
theorem forward_fixpoint_on_completion_witness :
    ∃ sf : State (Fin 4),
      runOnFunction true diamond (genAnalysis 2 [true, false] (fun _ => [false, true])) 5 20
        = some sf ∧
      sf.out 3 = bvOr (sf.inp 3) [false, true] ∧
      sf.inp 3 = bvOr (sf.out 1) (sf.out 2) := by
  cases h : runOnFunction true diamond
      (genAnalysis 2 [true, false] (fun _ => [false, true])) 5 20 with
  | none =>
    have h1 : (runOnFunction true diamond
      (genAnalysis 2 [true, false] (fun _ => [false, true])) 5 20).isSome = true := by decide
    rw [h] at h1
    cases h1
  | some sf =>
    have key := forward_fixpoint_on_completion diamond (by unfold CFG.Consistent; decide)
      (genAnalysis 2 [true, false] (fun _ => [false, true])) 5 20 sf h 3
      (Relation.ReflTransGen.tail (Relation.ReflTransGen.tail Relation.ReflTransGen.refl
        (show (1 : Fin 4) ∈ diamond.succ diamond.entry by decide))
        (show (3 : Fin 4) ∈ diamond.succ 1 by decide))
    exact ⟨sf, rfl, key.2.1, key.2.2 1 [2] (by decide)⟩

/-- C2. Backward fixpoint on completion: when a backward `runOnFunction`
returns, the worklist is empty and every block `b` reachable from the entry
satisfies `in[b] = transfer(b, out[b])`; when `b` has a first successor `x`
and further successors `xs`, `out[b]` is the meet-fold of the final `in`
vectors over `x, xs`; when `b` has no successor, `out[b]` is the result of
applying the boundary condition to the content `out[b]` had before (the
boundary condition applied `k + 1` times to the copy of `top`). -/
theorem backward_fixpoint_on_completion {B : Type} [DecidableEq B] (cfg : CFG B)
    (hc : cfg.Consistent) (a : Analysis B) (bfsFuel loopFuel : Nat) (sf : State B)
    (hrun : runOnFunction false cfg a bfsFuel loopFuel = some sf) (b : B)
    (hb : cfg.Reachable b) :
    sf.worklist = [] ∧ sf.inp b = a.transfer b (sf.out b) ∧
      (∀ (x : B) (xs : List B), cfg.succ b = x :: xs → sf.out b = meetFold a sf.inp x xs) ∧
      (cfg.succ b = [] →
        ∃ k : Nat, sf.out b = a.getBoundaryCondition (a.getBoundaryCondition^[k] a.top)) := by
  obtain ⟨seed, n, hseed, _, hr, hd⟩ := runOnFunction_some false cfg a hrun
  have hm := bfs_reachable_mem cfg hseed hb
  have h := backward_completed cfg hc a hr hd
  refine ⟨hd, (h.1 b hm).1, (h.1 b hm).2, ?_⟩
  intro hex
  obtain ⟨k, hk⟩ := h.2 b hm hex
  exact ⟨k, by rw [hk, Function.iterate_succ_apply']⟩

/-- Witness for C2 on the diamond: the entry block `0` of a completed
backward run satisfies its two equations. -/
theorem backward_fixpoint_on_completion_witness :
    ∃ sf : State (Fin 4),
      runOnFunction false diamond (genAnalysis 2 [true, false] (fun _ => [false, true])) 5 20
        = some sf ∧
      sf.inp 0 = bvOr (sf.out 0) [false, true] ∧
      sf.out 0 = bvOr (sf.inp 1) (sf.inp 2) := by
  cases h : runOnFunction false diamond
      (genAnalysis 2 [true, false] (fun _ => [false, true])) 5 20 with
  | none =>
    have h1 : (runOnFunction false diamond
      (genAnalysis 2 [true, false] (fun _ => [false, true])) 5 20).isSome = true := by decide
    rw [h] at h1
    cases h1
  | some sf =>
    have key := backward_fixpoint_on_completion diamond (by unfold CFG.Consistent; decide)
      (genAnalysis 2 [true, false] (fun _ => [false, true])) 5 20 sf h 0
      Relation.ReflTransGen.refl
    exact ⟨sf, rfl, key.2.1, key.2.2.1 1 [2] (by decide)⟩

/-! ## Termination and convergence under the monotone contract -/

/-- C3. Termination under a monotone contract: on a finite graph, for
vectors of length `h`, in both directions and from every initial worklist, if
the analysis satisfies the monotone contract (`meet` is bitwise OR, every
`transfer` is monotone, every initial interior point is the all-zero vector),
then the worklist is empty after some number `n` of scheduler steps, and the
loop of `runOnFunction` returns that state with any fuel of at least `n`. The
boundary condition of the contract sets its argument to a fixed value; the
theorem assumes less of it, and only for a backward run: that applying it
twice gives the same as applying it once. -/
theorem monotone_run_terminates {B : Type} [DecidableEq B] [Fintype B] (forward : Bool)
    (cfg : CFG B) (h : Nat) (a : Analysis B) (hm : MonotoneContract h a)
    (hi : forward = false → IdempotentBoundary h a) (seed : List B) :
    ∃ (n : Nat) (sf : State B),
      runSteps forward cfg a n (initialState forward cfg a seed) = some sf ∧
      sf.worklist = [] ∧
      ∀ fuel, n ≤ fuel →
        whileLoop forward cfg a fuel (initialState forward cfg a seed) = some sf := by
  obtain ⟨n, sf, hr, hf⟩ := monotone_terminates forward cfg hm hi seed
  exact ⟨n, sf, hr, hf, whileLoop_of_runSteps forward cfg a n _ sf hr hf⟩

/-- Witness for C3: a backward run on the diamond, from the seed of `bfs`. -/
theorem monotone_run_terminates_witness :
    ∃ (n : Nat) (sf : State (Fin 4)),
      runSteps false diamond (genAnalysis 2 [true, false] (fun _ => [false, true])) n
        (initialState false diamond (genAnalysis 2 [true, false] (fun _ => [false, true]))
          [0, 1, 2, 3, 3]) = some sf ∧
      sf.worklist = [] ∧
      ∀ fuel, n ≤ fuel →
        whileLoop false diamond (genAnalysis 2 [true, false] (fun _ => [false, true])) fuel
          (initialState false diamond (genAnalysis 2 [true, false] (fun _ => [false, true]))
            [0, 1, 2, 3, 3]) = some sf :=
  monotone_run_terminates false diamond 2 (genAnalysis 2 [true, false] (fun _ => [false, true]))
    (genAnalysis_monotone 2 _ _ rfl (fun _ => rfl))
    (fun _ => genAnalysis_idempotent 2 _ _) [0, 1, 2, 3, 3]

/-- C4. Monotone convergence bound: for vectors of length `h`, in both
directions and from every initial worklist, if the analysis satisfies the
monotone contract (`meet` is bitwise OR, every `transfer` is monotone, every
initial interior point is the all-zero vector), then during any number `n` of
scheduler steps the computed side of each block `b` (`out[b]` forward, `in[b]`
backward) is committed at most `h` times. The boundary condition of the
contract sets its argument to a fixed value; the theorem assumes less of it,
and only for a backward run: that applying it twice gives the same as applying
it once. -/
theorem monotone_commit_bound {B : Type} [DecidableEq B] (forward : Bool) (cfg : CFG B)
    (h : Nat) (a : Analysis B) (hm : MonotoneContract h a)
    (hi : forward = false → IdempotentBoundary h a) (seed : List B) (b : B) (n : Nat) :
    commitCount forward cfg a b n (initialState forward cfg a seed) ≤ h := by
  cases forward with
  | true =>
    rw [commitCount_forward]
    have := genericCommits_le cfg.pred cfg.succ (stepContract_forward hm) b n _
      (monoInv_forward_initial cfg hm seed)
    omega
  | false =>
    rw [commitCount_backward]
    have := genericCommits_le cfg.succ cfg.pred (stepContract_backward hm (hi rfl)) b n _
      (monoInv_backward_initial cfg hm (hi rfl) seed)
    omega

/-- Witness for C4: the exit block of the diamond in a backward run of ten
steps. -/
theorem monotone_commit_bound_witness :
    commitCount false diamond (genAnalysis 2 [true, false] (fun _ => [false, true])) 3 10
      (initialState false diamond (genAnalysis 2 [true, false] (fun _ => [false, true]))
        [0, 1, 2, 3, 3]) ≤ 2 :=
  monotone_commit_bound false diamond 2 (genAnalysis 2 [true, false] (fun _ => [false, true]))
    (genAnalysis_monotone 2 _ _ rfl (fun _ => rfl))
    (fun _ => genAnalysis_idempotent 2 _ _) [0, 1, 2, 3, 3] 3 10

/-- C5. Seed-order independence: on a finite graph whose predecessor and
successor enumerations describe the same edges, under the monotone contract,
the forward runs started from any two permutations `wl1`, `wl2` of the
sequence `seed` produced by `bfs` both reach an empty worklist, after `n1` and
`n2` steps, in one and the same final state: the same `in[b]` and `out[b]` for
every block `b`. -/
theorem seed_order_independent {B : Type} [DecidableEq B] [Fintype B] (cfg : CFG B)
    (hc : cfg.Consistent) (h : Nat) (a : Analysis B) (hm : MonotoneContract h a)
    (bfsFuel : Nat) (seed : List B) (hseed : bfs cfg bfsFuel [] = some seed)
    (wl1 wl2 : List B) (h1 : wl1.Perm seed) (h2 : wl2.Perm seed) :
    ∃ (n1 n2 : Nat) (sf : State B),
      runSteps true cfg a n1 (initialState true cfg a wl1) = some sf ∧
      runSteps true cfg a n2 (initialState true cfg a wl2) = some sf ∧
      sf.worklist = [] := by
  have hinit : ∀ wl : List B, initialState true cfg a wl
      = ⟨setVec (fun _ => a.top) cfg.entry (a.getBoundaryCondition a.top),
          fun _ => zeros h, wl⟩ := by
    intro wl
    simp only [initialState, if_true]
    congr
    exact funext hm.interior_zero
  have hx0 : ∀ b, (setVec (fun _ => a.top) cfg.entry (a.getBoundaryCondition a.top) b).length
      = h := by
    intro b
    by_cases e : b = cfg.entry
    · rw [e, setVec_same]
      exact hm.boundary_length _ hm.top_length
    · rw [setVec_other _ _ e]
      exact hm.top_length
  obtain ⟨n1, n2, sf, hr1, hr2, hd⟩ := genericRun_confluent cfg.pred cfg.succ
    (stepContract_forward hm) hc (fun b => b ∈ seed) (bfs_succ_closed cfg hseed) _ hx0 wl1 wl2
    (fun _ => h1.mem_iff) (fun _ => h2.mem_iff)
  exact ⟨n1, n2, sf, by rw [runSteps_forward, hinit]; exact hr1,
    by rw [runSteps_forward, hinit]; exact hr2, hd⟩

/-- Witness for C5 on the diamond: the seed order of `bfs` and its reverse. -/
theorem seed_order_independent_witness :
    ∃ (n1 n2 : Nat) (sf : State (Fin 4)),
      runSteps true diamond (genAnalysis 2 [true, false] (fun _ => [false, true])) n1
        (initialState true diamond (genAnalysis 2 [true, false] (fun _ => [false, true]))
          [0, 1, 2, 3, 3]) = some sf ∧
      runSteps true diamond (genAnalysis 2 [true, false] (fun _ => [false, true])) n2
        (initialState true diamond (genAnalysis 2 [true, false] (fun _ => [false, true]))
          [3, 3, 2, 1, 0]) = some sf ∧
      sf.worklist = [] :=
  seed_order_independent diamond (by unfold CFG.Consistent; decide) 2
    (genAnalysis 2 [true, false] (fun _ => [false, true]))
    (genAnalysis_monotone 2 _ _ rfl (fun _ => rfl)) 5 [0, 1, 2, 3, 3] (by decide)
    [0, 1, 2, 3, 3] [3, 3, 2, 1, 0] (List.Perm.refl _)
    (List.reverse_perm [0, 1, 2, 3, 3])

/-! ## Seeding, single block, diamond, re-evaluation -/

/-- C6 (fails on the code). On the diamond `bfs` appends the exit block `3`
twice: both `1` and `2` are popped, and each pushes `3`, before `3` is popped
and marked visited. -/
theorem bfs_diamond_has_duplicate :
    ∃ seed : List (Fin 4), bfs diamond 5 [] = some seed ∧ seed = [0, 1, 2, 3, 3] ∧
      ¬ seed.Nodup ∧ seed.count 3 = 2 :=
  ⟨[0, 1, 2, 3, 3], by decide, rfl, by decide, by decide⟩

/-- C7. Single-block function, forward: when the entry block has neither
successors nor predecessors, `bfs` seeds the worklist with the entry block
alone, the loop does not finish in zero iterations and finishes after one; the
state after that iteration has an empty worklist, `in[entry]` equal to the
boundary-condition value and `out[entry] = transfer(entry, in[entry])`. -/
theorem single_block_forward {B : Type} [DecidableEq B] (cfg : CFG B) (a : Analysis B)
    (hs : cfg.succ cfg.entry = []) (hp : cfg.pred cfg.entry = []) (bfsFuel loopFuel : Nat) :
    bfs cfg (bfsFuel + 1) [] = some [cfg.entry] ∧
    runOnFunction true cfg a (bfsFuel + 1) 0 = none ∧
    ∃ sf : State B,
      runSteps true cfg a 1 (initialState true cfg a [cfg.entry]) = some sf ∧
      runOnFunction true cfg a (bfsFuel + 1) (loopFuel + 1) = some sf ∧
      sf.worklist = [] ∧
      sf.inp cfg.entry = a.getBoundaryCondition a.top ∧
      sf.out cfg.entry = a.transfer cfg.entry (sf.inp cfg.entry) := by
  have hbfs : bfs cfg (bfsFuel + 1) [] = some [cfg.entry] := by
    cases bfsFuel <;> simp [bfs, bfsLoop, hs]
  have hstep : ∃ sf : State B,
      schedulerStep true cfg a (initialState true cfg a [cfg.entry]) = some sf ∧
      sf.worklist = [] ∧ sf.inp cfg.entry = a.getBoundaryCondition a.top ∧
      sf.out cfg.entry = a.transfer cfg.entry (sf.inp cfg.entry) := by
    have hw : (initialState true cfg a [cfg.entry]).worklist = cfg.entry :: [] := rfl
    have hg := genericStep_cons cfg.pred cfg.succ id a _ hw
    rw [← reversePostOrder_eq_genericStep] at hg
    refine ⟨_, hg, ?_, ?_, ?_⟩
    · simp [hs]
    · simp [setVec_same, foldedSide, hp, initialState]
    · simp [setVec_same]
  obtain ⟨sf, h1, h2, h3, h4⟩ := hstep
  refine ⟨hbfs, ?_, sf, ?_, ?_, h2, h3, h4⟩
  · simp [runOnFunction, hbfs, whileLoop, initialState]
  · simp [runSteps, h1]
  · have hr : runSteps true cfg a 1 (initialState true cfg a [cfg.entry]) = some sf := by
      simp [runSteps, h1]
    simp only [runOnFunction, hbfs, Option.some_bind]
    exact whileLoop_of_runSteps true cfg a 1 _ sf hr h2 (loopFuel + 1) (by omega)

/-- Witness for C7 on the function with one block. -/
theorem single_block_forward_witness :
    bfs singleBlock 1 [] = some [()] ∧
    runOnFunction true singleBlock (genAnalysis 2 [true, false] (fun _ => [false, true])) 1 0
      = none ∧
    ∃ sf : State Unit,
      runSteps true singleBlock (genAnalysis 2 [true, false] (fun _ => [false, true])) 1
        (initialState true singleBlock
          (genAnalysis 2 [true, false] (fun _ => [false, true])) [()]) = some sf ∧
      runOnFunction true singleBlock (genAnalysis 2 [true, false] (fun _ => [false, true])) 1 1
        = some sf ∧
      sf.worklist = [] ∧
      sf.inp () = [true, false] ∧
      sf.out () = bvOr (sf.inp ()) [false, true] :=
  single_block_forward singleBlock (genAnalysis 2 [true, false] (fun _ => [false, true]))
    rfl rfl 0 0

/-- C8. Diamond, backward: on a graph with entry `0`, whose successors are the
blocks `1` and `2` (in either enumeration order), each with the single
successor `3`, a backward run with `meet` = bitwise OR that returns ends with
`out[entry] = in[A] | in[B]`. -/
theorem diamond_backward_entry (cfg : CFG (Fin 4)) (hc : cfg.Consistent) (he : cfg.entry = 0)
    (h0 : cfg.succ 0 = [1, 2] ∨ cfg.succ 0 = [2, 1]) (_h1 : cfg.succ 1 = [3])
    (_h2 : cfg.succ 2 = [3]) (_h3 : cfg.succ 3 = []) (a : Analysis (Fin 4))
    (hm : a.meet = bvOr) (bfsFuel loopFuel : Nat) (sf : State (Fin 4))
    (hrun : runOnFunction false cfg a bfsFuel loopFuel = some sf) :
    sf.out 0 = bvOr (sf.inp 1) (sf.inp 2) := by
  obtain ⟨seed, n, hseed, _, hr, hd⟩ := runOnFunction_some false cfg a hrun
  have hmem : (0 : Fin 4) ∈ seed := he ▸ bfs_entry_mem cfg hseed
  have h := ((backward_completed cfg hc a hr hd).1 0 hmem).2
  rcases h0 with h0 | h0
  · have := h 1 [2] h0
    simpa [State.swap, meetFold, hm] using this
  · have := h 2 [1] h0
    rw [bvOr_comm]
    simpa [State.swap, meetFold, hm] using this

/-- Witness for C8 on `diamond`. -/
theorem diamond_backward_entry_witness :
    ∃ sf : State (Fin 4),
      runOnFunction false diamond (genAnalysis 2 [true, false] (fun _ => [false, true])) 5 20
        = some sf ∧
      sf.out 0 = bvOr (sf.inp 1) (sf.inp 2) := by
  cases h : runOnFunction false diamond
      (genAnalysis 2 [true, false] (fun _ => [false, true])) 5 20 with
  | none =>
    have h1 : (runOnFunction false diamond
      (genAnalysis 2 [true, false] (fun _ => [false, true])) 5 20).isSome = true := by decide
    rw [h] at h1
    cases h1
  | some sf =>
    exact ⟨sf, rfl, diamond_backward_entry diamond (by unfold CFG.Consistent; decide) rfl
      (Or.inl rfl) rfl rfl rfl (genAnalysis 2 [true, false] (fun _ => [false, true])) rfl
      5 20 sf h⟩

/-- C9. Self-loop stabilisation: on the graph `entry → L`, `L → L`,
`L → exit` (any enumeration order of the successors and predecessors of `L`),
under the monotone contract on 2-bit vectors, `bfs` seeds `[entry, L, exit]`,
the forward run empties the worklist after some number `N` of steps, the final
`in[L]` equals `out[entry] | out[L]`, and in every state of the run reached
after at least three evaluations of `L` (the first one and two re-evaluations)
`in[L]` already has its final value. -/
theorem self_loop_stabilises (succSwap predSwap : Bool) (a : Analysis (Fin 3))
    (hm : MonotoneContract 2 a) :
    bfs (selfLoop succSwap predSwap) 3 [] = some [0, 1, 2] ∧
    ∃ (N : Nat) (sf : State (Fin 3)),
      runSteps true (selfLoop succSwap predSwap) a N
        (initialState true (selfLoop succSwap predSwap) a [0, 1, 2]) = some sf ∧
      sf.worklist = [] ∧
      sf.inp 1 = bvOr (sf.out 0) (sf.out 1) ∧
      ∀ (n : Nat) (t : State (Fin 3)),
        runSteps true (selfLoop succSwap predSwap) a n
          (initialState true (selfLoop succSwap predSwap) a [0, 1, 2]) = some t →
        3 ≤ evalCount true (selfLoop succSwap predSwap) a 1 n
          (initialState true (selfLoop succSwap predSwap) a [0, 1, 2]) →
        t.inp 1 = sf.inp 1 := by
  refine ⟨selfLoop_bfs succSwap predSwap, ?_⟩
  have hA : (a.transfer 0 (a.getBoundaryCondition a.top)).length = 2 :=
    hm.transfer_length _ _ (hm.boundary_length _ hm.top_length)
  -- the first step evaluates the entry block
  have hw0 : (initialState true (selfLoop succSwap predSwap) a [0, 1, 2]).worklist
      = 0 :: [1, 2] := rfl
  have hst0 := genericStep_cons (selfLoop succSwap predSwap).pred
    (selfLoop succSwap predSwap).succ id a _ hw0
  rw [← reversePostOrder_eq_genericStep] at hst0
  have hinv1 : LoopInv a (a.transfer 0 (a.getBoundaryCondition a.top)) 0
      ⟨setVec (initialState true (selfLoop succSwap predSwap) a [0, 1, 2]).inp 0
          (foldedSide (selfLoop succSwap predSwap).pred id a
            (initialState true (selfLoop succSwap predSwap) a [0, 1, 2]) 0),
        setVec (initialState true (selfLoop succSwap predSwap) a [0, 1, 2]).out 0
          (a.transfer 0 (foldedSide (selfLoop succSwap predSwap).pred id a
            (initialState true (selfLoop succSwap predSwap) a [0, 1, 2]) 0)),
        [1, 2] ++ (if a.transfer 0 (foldedSide (selfLoop succSwap predSwap).pred id a
            (initialState true (selfLoop succSwap predSwap) a [0, 1, 2]) 0)
            ≠ (initialState true (selfLoop succSwap predSwap) a [0, 1, 2]).out 0
          then (selfLoop succSwap predSwap).succ 0 else [])⟩ := by
    have hf : foldedSide (selfLoop succSwap predSwap).pred id a
        (initialState true (selfLoop succSwap predSwap) a [0, 1, 2]) 0
        = a.getBoundaryCondition a.top := by
      simp [foldedSide, selfLoop, initialState, setVec]
    refine ⟨by simp [setVec_same, hf], ?_, fun _ => ?_, fun h => absurd h (lt_irrefl 0)⟩
    · intro b hb
      have h12 : ∀ c : Fin 3, c ∈ [1, 2] → c ≠ 0 := by decide
      have h11 : ∀ c : Fin 3, c ∈ [1] → c ≠ 0 := by decide
      rcases List.mem_append.1 hb with h1 | h1
      · exact h12 b h1
      · split_ifs at h1
        · exact h11 b h1
        · simp at h1
    · have hne : (1 : Fin 3) ≠ 0 := by decide
      simp [setVec_other _ _ hne, initialState, hm.interior_zero]
  have key : ∀ (n : Nat) (t : State (Fin 3)),
      runSteps true (selfLoop succSwap predSwap) a (n + 1)
        (initialState true (selfLoop succSwap predSwap) a [0, 1, 2]) = some t →
      LoopInv a (a.transfer 0 (a.getBoundaryCondition a.top))
        (evalCount true (selfLoop succSwap predSwap) a 1 (n + 1)
          (initialState true (selfLoop succSwap predSwap) a [0, 1, 2])) t := by
    intro n t hr
    simp only [runSteps, schedulerStep, if_true, hst0, Option.some_bind] at hr
    have h1 := selfLoop_run hm succSwap predSwap _ hA n 0 _ t hinv1 hr
    have h01 : ¬ ((0 : Fin 3) = 1) := by decide
    simpa [evalCount, hw0, schedulerStep, hst0, h01] using h1
  obtain ⟨N, sf, hr, hd⟩ := monotone_terminates true (selfLoop succSwap predSwap) hm
    (fun h => Bool.noConfusion h) [0, 1, 2]
  have hsol := forward_completed (selfLoop succSwap predSwap)
    (selfLoop_consistent succSwap predSwap) a hr hd 1 (by decide)
  have hfin : sf.inp 1 = bvOr (sf.out 0) (sf.out 1) := by
    have := hsol.2
    cases predSwap
    · simpa [meetFold, hm.meet_or] using this 0 [1] rfl
    · rw [bvOr_comm]
      simpa [meetFold, hm.meet_or] using this 1 [0] rfl
  obtain ⟨M, rfl⟩ : ∃ M, N = M + 1 := by
    cases N with
    | zero =>
      simp only [runSteps, Option.some.injEq] at hr
      rw [← hr] at hd
      cases hd
    | succ M => exact ⟨M, rfl⟩
  have hinvF := key M sf hr
  -- the update of `in[L]` is increasing and monotone, so it is stable after two rounds
  have hstab := iterate_stable (loopUpdate a (a.transfer 0 (a.getBoundaryCondition a.top)))
    (fun v hv => bvOr_length hA (hm.transfer_length 1 v hv))
    (fun v w hv hw hle => bvOr_mono (bvLe_refl _) (hm.transfer_mono 1 v w hv hw hle))
    _ hA (bvLe_bvOr_left _ _ (by rw [hA, hm.transfer_length 1 _ hA]))
  have hfixF : loopUpdate a (a.transfer 0 (a.getBoundaryCondition a.top)) (sf.inp 1)
      = sf.inp 1 := by
    unfold loopUpdate
    rw [← hsol.1, ← hinvF.1, ← hfin]
  have hfinal : sf.inp 1 = loopUpdate a (a.transfer 0 (a.getBoundaryCondition a.top))
      (loopUpdate a (a.transfer 0 (a.getBoundaryCondition a.top))
        (a.transfer 0 (a.getBoundaryCondition a.top))) := by
    rcases Nat.eq_zero_or_pos (evalCount true (selfLoop succSwap predSwap) a 1 (M + 1)
      (initialState true (selfLoop succSwap predSwap) a [0, 1, 2])) with he | he
    · have h1 : sf.inp 1 = a.transfer 0 (a.getBoundaryCondition a.top) := by
        rw [hfin, hinvF.1, hinvF.2.2.1 he, bvOr_zeros_right 2 _ hA]
      rw [h1] at hfixF
      rw [h1, hfixF, hfixF]
    · have h1 := (hinvF.2.2.2 he).1
      generalize evalCount true (selfLoop succSwap predSwap) a 1 (M + 1)
        (initialState true (selfLoop succSwap predSwap) a [0, 1, 2]) = E at h1 he
      match E, he with
      | 1, _ =>
        have h2 : sf.inp 1 = a.transfer 0 (a.getBoundaryCondition a.top) := h1
        rw [h2] at hfixF
        rw [h2, hfixF, hfixF]
      | 2, _ =>
        have h2 : sf.inp 1 = loopUpdate a (a.transfer 0 (a.getBoundaryCondition a.top))
            (a.transfer 0 (a.getBoundaryCondition a.top)) := h1
        rw [h2] at hfixF
        rw [h2, hfixF]
      | k + 3, _ =>
        rw [h1]
        exact hstab k
  refine ⟨M + 1, sf, hr, hd, hfin, ?_⟩
  intro n t hrt he
  cases n with
  | zero => simp [evalCount] at he
  | succ n =>
    have hinvT := key n t hrt
    have h1 := (hinvT.2.2.2 (by omega)).1
    generalize evalCount true (selfLoop succSwap predSwap) a 1 (n + 1)
      (initialState true (selfLoop succSwap predSwap) a [0, 1, 2]) = E at h1 he
    obtain ⟨k, rfl⟩ : ∃ k, E = k + 3 := ⟨E - 3, by omega⟩
    rw [h1, hfinal]
    exact hstab k

/-- Witness for C9: the analysis that adds bit 1 at the entry block and
copies what flows in elsewhere. -/
theorem self_loop_stabilises_witness :
    bfs (selfLoop false false) 3 [] = some [0, 1, 2] ∧
    ∃ (N : Nat) (sf : State (Fin 3)),
      runSteps true (selfLoop false false) (genAnalysis 2 [true, false] (fun _ => [false, true]))
        N (initialState true (selfLoop false false)
          (genAnalysis 2 [true, false] (fun _ => [false, true])) [0, 1, 2]) = some sf ∧
      sf.worklist = [] ∧
      sf.inp 1 = bvOr (sf.out 0) (sf.out 1) ∧
      ∀ (n : Nat) (t : State (Fin 3)),
        runSteps true (selfLoop false false)
          (genAnalysis 2 [true, false] (fun _ => [false, true])) n
          (initialState true (selfLoop false false)
            (genAnalysis 2 [true, false] (fun _ => [false, true])) [0, 1, 2]) = some t →
        3 ≤ evalCount true (selfLoop false false)
          (genAnalysis 2 [true, false] (fun _ => [false, true])) 1 n
          (initialState true (selfLoop false false)
            (genAnalysis 2 [true, false] (fun _ => [false, true])) [0, 1, 2]) →
        t.inp 1 = sf.inp 1 :=
  self_loop_stabilises false false (genAnalysis 2 [true, false] (fun _ => [false, true]))
    (genAnalysis_monotone 2 _ _ rfl (fun _ => rfl))

/-- C11. Forward boundary invariant: on a graph whose entry block has no
predecessors, the boundary condition is applied to the copy of `top` in
`in[entry]` before the first scheduler step; the forward step applied to the
entry block leaves the map `in` as it is; and `in[entry]` equals the
boundary-condition value after initialization, after any number of scheduler
steps and in the state `runOnFunction` returns. -/
theorem forward_boundary_invariant {B : Type} [DecidableEq B] (cfg : CFG B) (a : Analysis B)
    (hentry : cfg.pred cfg.entry = []) (seed : List B) :
    (initialState true cfg a seed).inp cfg.entry = a.getBoundaryCondition a.top ∧
    (∀ (s : State B) (q : List B), s.worklist = cfg.entry :: q →
      ∃ s1 : State B, reversePostOrder cfg a s = some s1 ∧ s1.inp = s.inp) ∧
    (∀ (n : Nat) (s : State B),
      runSteps true cfg a n (initialState true cfg a seed) = some s →
      s.inp cfg.entry = a.getBoundaryCondition a.top) ∧
    (∀ (bfsFuel loopFuel : Nat) (sf : State B),
      runOnFunction true cfg a bfsFuel loopFuel = some sf →
      sf.inp cfg.entry = a.getBoundaryCondition a.top) := by
  have h0 : ∀ wl : List B,
      (initialState true cfg a wl).inp cfg.entry = a.getBoundaryCondition a.top := by
    intro wl
    simp [initialState, setVec_same]
  refine ⟨h0 seed, ?_, ?_, ?_⟩
  · intro s q hw
    unfold reversePostOrder
    simp only [hw, hentry]
    split_ifs
    · exact ⟨_, rfl, rfl⟩
    · exact ⟨_, rfl, rfl⟩
  · intro n s hr
    exact forward_entry_inp cfg a hentry _ n _ s (h0 seed) hr
  · intro bfsFuel loopFuel sf hr
    obtain ⟨seed1, n, _, _, hn, _⟩ := runOnFunction_some true cfg a hr
    exact forward_entry_inp cfg a hentry _ n _ sf (h0 seed1) hn

/-- Witness for C11 on the diamond after three scheduler steps. -/
theorem forward_boundary_invariant_witness :
    ∃ s : State (Fin 4),
      runSteps true diamond (genAnalysis 2 [true, false] (fun _ => [false, true])) 3
        (initialState true diamond (genAnalysis 2 [true, false] (fun _ => [false, true]))
          [0, 1, 2, 3, 3]) = some s ∧
      s.inp 0 = [true, false] := by
  cases h : runSteps true diamond (genAnalysis 2 [true, false] (fun _ => [false, true])) 3
      (initialState true diamond (genAnalysis 2 [true, false] (fun _ => [false, true]))
        [0, 1, 2, 3, 3]) with
  | none =>
    have h1 : (runSteps true diamond (genAnalysis 2 [true, false] (fun _ => [false, true])) 3
      (initialState true diamond (genAnalysis 2 [true, false] (fun _ => [false, true]))
        [0, 1, 2, 3, 3])).isSome = true := by decide
    rw [h] at h1
    cases h1
  | some s =>
    exact ⟨s, rfl, (forward_boundary_invariant diamond
      (genAnalysis 2 [true, false] (fun _ => [false, true])) rfl [0, 1, 2, 3, 3]).2.2.1 3 s h⟩

/-- C12. Non-monotone contracts can diverge: on the graph `entry → L`,
`L → L` with 1-bit vectors, `complementAnalysis` has bitwise OR as meet and a
transfer (the complement) that is not monotone, and its forward run never
empties the worklist: after every number `n` of scheduler steps the worklist
is non-empty, and `runOnFunction` returns for no fuel. -/
theorem non_monotone_diverges :
    complementAnalysis.meet = bvOr ∧
    (¬ ∀ v w : BitVector, v.length = 1 → w.length = 1 → bvLe v w = true →
      bvLe (complementAnalysis.transfer 1 v) (complementAnalysis.transfer 1 w) = true) ∧
    bfs loopOnly 2 [] = some [0, 1] ∧
    (∀ n : Nat, ∃ t : State (Fin 2),
      runSteps true loopOnly complementAnalysis n
        (initialState true loopOnly complementAnalysis [0, 1]) = some t ∧
      t.worklist ≠ []) ∧
    ∀ loopFuel : Nat, runOnFunction true loopOnly complementAnalysis 2 loopFuel = none := by
  have hbfs : bfs loopOnly 2 [] = some [0, 1] := by decide
  have hall : ∀ b : Fin 2, b ∈ [0, 1] := by decide
  have h2 : runSteps true loopOnly complementAnalysis 2
      (initialState true loopOnly complementAnalysis [0, 1]) = some complementCycleState :=
    sameState_eq hall (by decide)
  have hp : runSteps true loopOnly complementAnalysis (1 + 1) complementCycleState
      = some complementCycleState :=
    sameState_eq hall (by decide)
  have hbusy := runSteps_cycle true loopOnly complementAnalysis h2 hp
  refine ⟨rfl, ?_, hbfs, hbusy, runOnFunction_none_of_busy true loopOnly complementAnalysis
    hbfs hbusy⟩
  intro hmono
  have := hmono [false] [true] rfl rfl (by decide)
  revert this
  decide

/-- C13. Placeholder vectors are not read before they are written: take a
graph whose predecessor and successor enumerations describe the same edges, a
boundary condition that overwrites its argument (a constant assignment), and a
second forward run that differs from the first only in the vector `top2` used
in the place of `top`. After any number `n` of scheduler steps the second run
has the same worklist and the same map `out` as the first, and the same
`in[b]` for every block `b` the scheduler has evaluated. -/
theorem placeholder_independent {B : Type} [DecidableEq B] (cfg : CFG B) (hc : cfg.Consistent)
    (a : Analysis B) (top2 : BitVector)
    (hconst : ∀ v w : BitVector, a.getBoundaryCondition v = a.getBoundaryCondition w)
    (bfsFuel : Nat) (seed : List B) (hseed : bfs cfg bfsFuel [] = some seed) (n : Nat)
    (s : State B) (hr : runSteps true cfg a n (initialState true cfg a seed) = some s) :
    ∃ s2 : State B,
      runSteps true cfg (withTop a top2) n (initialState true cfg (withTop a top2) seed)
        = some s2 ∧
      s2.worklist = s.worklist ∧ s2.out = s.out ∧
      ∀ b, 0 < evalCount true cfg a b n (initialState true cfg a seed) → s2.inp b = s.inp b := by
  obtain ⟨s2, h1, h2, h3, h4⟩ := forward_lockstep cfg a (fun b => b ∈ seed)
    (bfs_succ_closed cfg hseed)
    (fun x hx hne => reachable_has_pred cfg hc (bfs_mem_reachable cfg hseed x hx) hne)
    n (initialState true cfg a seed) (initialState true cfg (withTop a top2) seed) s rfl rfl
    (by simp [initialState, withTop, setVec_same, hconst top2 a.top])
    (fun c hc1 => hc1) hr
  exact ⟨s2, by rw [runSteps_withTop]; exact h1, h2, h3, fun b hb => h4 b (Or.inr hb)⟩

/-- Witness for C13 on the diamond: after five steps block `1` has been
evaluated, and the run with `top = [true, true]` has the same `out` and the
same `in[1]`. -/
theorem placeholder_independent_witness :
    ∃ s s2 : State (Fin 4),
      runSteps true diamond (genAnalysis 2 [true, false] (fun _ => [false, true])) 5
        (initialState true diamond (genAnalysis 2 [true, false] (fun _ => [false, true]))
          [0, 1, 2, 3, 3]) = some s ∧
      runSteps true diamond
        (withTop (genAnalysis 2 [true, false] (fun _ => [false, true])) [true, true]) 5
        (initialState true diamond
          (withTop (genAnalysis 2 [true, false] (fun _ => [false, true])) [true, true])
          [0, 1, 2, 3, 3]) = some s2 ∧
      s2.out = s.out ∧ s2.inp 1 = s.inp 1 := by
  cases h : runSteps true diamond (genAnalysis 2 [true, false] (fun _ => [false, true])) 5
      (initialState true diamond (genAnalysis 2 [true, false] (fun _ => [false, true]))
        [0, 1, 2, 3, 3]) with
  | none =>
    have h1 : (runSteps true diamond (genAnalysis 2 [true, false] (fun _ => [false, true])) 5
      (initialState true diamond (genAnalysis 2 [true, false] (fun _ => [false, true]))
        [0, 1, 2, 3, 3])).isSome = true := by decide
    rw [h] at h1
    cases h1
  | some s =>
    obtain ⟨s2, h1, _, h3, h4⟩ := placeholder_independent diamond
      (by unfold CFG.Consistent; decide)
      (genAnalysis 2 [true, false] (fun _ => [false, true])) [true, true] (fun _ _ => rfl)
      5 [0, 1, 2, 3, 3] (by decide) 5 s h
    exact ⟨s, s2, rfl, h1, h3, h4 1 (by decide)⟩

/-- C14 (fails on the code). On `deadBlock` the sequence `bfs` produces is
`[0, 1]`: block `2`, which no path from the entry reaches, is in no initial
worklist, whatever the fuel. -/
theorem bfs_misses_dead_block :
    bfs deadBlock 2 [] = some [0, 1] ∧
    ∀ (fuel : Nat) (seed : List (Fin 3)), bfs deadBlock fuel [] = some seed → 2 ∉ seed := by
  refine ⟨by decide, ?_⟩
  intro fuel seed h hmem
  exact bfs_mem_inv deadBlock (fun b => b ≠ 2) (by decide) (by decide) h 2 hmem rfl

/-- C15. The seeding loop terminates on every finite graph, cyclic or not:
there is a bound such that with any fuel of at least that many pops the queue
loop of `bfs` reaches the empty queue and returns a sequence, which starts
with the entry block and contains only blocks reachable from the entry over
successor edges. -/
theorem bfs_terminates {B : Type} [DecidableEq B] [Fintype B] (cfg : CFG B) :
    ∃ bound : Nat, ∀ fuel : Nat, bound ≤ fuel →
      ∃ seed : List B, bfs cfg fuel [] = some seed ∧ seed.head? = some cfg.entry ∧
        ∀ b ∈ seed, cfg.Reachable b := by
  obtain ⟨bound, hb⟩ := bfs_terminates_from cfg
  refine ⟨bound, fun fuel hf => ?_⟩
  obtain ⟨seed, hs⟩ := hb fuel hf
  exact ⟨seed, hs, bfs_head cfg hs, bfs_mem_reachable cfg hs⟩

/-- Witness for C15 on the self-loop graph. -/
theorem bfs_terminates_witness :
    ∃ bound : Nat, ∀ fuel : Nat, bound ≤ fuel →
      ∃ seed : List (Fin 3), bfs (selfLoop false false) fuel [] = some seed ∧
        seed.head? = some 0 ∧ ∀ b ∈ seed, (selfLoop false false).Reachable b :=
  bfs_terminates (selfLoop false false)

/-- C16. Duplicate evaluations are no-ops: on a worklist `b :: b :: rest`,
when `b` is not among its own predecessors the second of two successive
forward steps leaves the maps `in` and `out` as the first left them and only
pops `b` (it appends nothing); the same holds for two successive backward
steps when `b` is not among its own successors and the boundary condition is a
constant assignment. -/
theorem duplicate_evaluation_noop {B : Type} [DecidableEq B] (cfg : CFG B) (a : Analysis B)
    (s : State B) (b : B) (rest : List B) (hw : s.worklist = b :: b :: rest) :
    (b ∉ cfg.pred b →
      ∃ s1 s2 : State B, reversePostOrder cfg a s = some s1 ∧
        reversePostOrder cfg a s1 = some s2 ∧
        s2.inp = s1.inp ∧ s2.out = s1.out ∧ s2.worklist = s1.worklist.tail) ∧
    (b ∉ cfg.succ b →
      (∀ v w : BitVector, a.getBoundaryCondition v = a.getBoundaryCondition w) →
      ∃ s1 s2 : State B, postOrder cfg a s = some s1 ∧
        postOrder cfg a s1 = some s2 ∧
        s2.inp = s1.inp ∧ s2.out = s1.out ∧ s2.worklist = s1.worklist.tail) := by
  constructor
  · intro hb
    obtain ⟨s1, s2, h1, h2, h3⟩ := genericStep_twice cfg.pred cfg.succ id a (fun _ => rfl) s hw hb
    exact ⟨s1, s2, by rw [reversePostOrder_eq_genericStep]; exact h1,
      by rw [reversePostOrder_eq_genericStep]; exact h2, h3⟩
  · intro hb hconst
    obtain ⟨s1, s2, h1, h2, h3, h4, h5⟩ := genericStep_twice cfg.succ cfg.pred
      a.getBoundaryCondition a (fun v => hconst _ v) s.swap hw hb
    refine ⟨s1.swap, s2.swap, ?_, ?_, h4, h3, h5⟩
    · rw [postOrder_eq_genericStep, h1]
      rfl
    · rw [postOrder_eq_genericStep, swap_swap, h2]
      rfl

/-- Witness for C16: the exit block of the diamond, seeded twice, at the
start of a forward and of a backward run. -/
theorem duplicate_evaluation_noop_witness :
    (∃ s1 s2 : State (Fin 4),
      reversePostOrder diamond (genAnalysis 2 [true, false] (fun _ => [false, true]))
        (initialState true diamond (genAnalysis 2 [true, false] (fun _ => [false, true]))
          [3, 3, 0]) = some s1 ∧
      reversePostOrder diamond (genAnalysis 2 [true, false] (fun _ => [false, true])) s1
        = some s2 ∧
      s2.inp = s1.inp ∧ s2.out = s1.out ∧ s2.worklist = s1.worklist.tail) ∧
    (∃ s1 s2 : State (Fin 4),
      postOrder diamond (genAnalysis 2 [true, false] (fun _ => [false, true]))
        (initialState false diamond (genAnalysis 2 [true, false] (fun _ => [false, true]))
          [0, 3, 3]) = some s1 ∧
      postOrder diamond (genAnalysis 2 [true, false] (fun _ => [false, true])) s1 = some s2 ∧
      s2.inp = s1.inp ∧ s2.out = s1.out ∧ s2.worklist = s1.worklist.tail) :=
  ⟨(duplicate_evaluation_noop diamond (genAnalysis 2 [true, false] (fun _ => [false, true]))
      (initialState true diamond (genAnalysis 2 [true, false] (fun _ => [false, true]))
        [3, 3, 0]) 3 [0] rfl).1 (by decide),
    (duplicate_evaluation_noop diamond (genAnalysis 2 [true, false] (fun _ => [false, true]))
      (initialState false diamond (genAnalysis 2 [true, false] (fun _ => [false, true]))
        [0, 3, 3]) 3 [0] rfl).2 (by decide) (fun _ _ => rfl)⟩

/-- C17. Frame of a scheduler step: in either direction, a step that pops
block `b` returns a state in which `in[c]` and `out[c]` are unchanged for every
block `c` other than `b`. Every state holds one `in` and one `out` vector for
each block of the function (the maps are total on the blocks), before the step
as after it. -/
theorem scheduler_step_frame {B : Type} [DecidableEq B] (forward : Bool) (cfg : CFG B)
    (a : Analysis B) (s : State B) (b : B) (rest : List B) (hw : s.worklist = b :: rest) :
    ∃ s1 : State B, schedulerStep forward cfg a s = some s1 ∧
      ∀ c : B, c ≠ b → s1.inp c = s.inp c ∧ s1.out c = s.out c := by
  cases forward with
  | true =>
    obtain ⟨s1, h1, h2⟩ := genericStep_frame cfg.pred cfg.succ id a s hw
    exact ⟨s1, by simp only [schedulerStep, if_true, reversePostOrder_eq_genericStep, h1], h2⟩
  | false =>
    obtain ⟨s1, h1, h2⟩ := genericStep_frame cfg.succ cfg.pred a.getBoundaryCondition a
      s.swap hw
    refine ⟨s1.swap, ?_, fun c hc => ⟨(h2 c hc).2, (h2 c hc).1⟩⟩
    simp only [schedulerStep, postOrder_eq_genericStep, h1]
    rfl

/-- Witness for C17: the first backward step on the diamond pops the exit
block and leaves the vectors of block `1` alone. -/
theorem scheduler_step_frame_witness :
    ∃ s1 : State (Fin 4),
      schedulerStep false diamond (genAnalysis 2 [true, false] (fun _ => [false, true]))
        (initialState false diamond (genAnalysis 2 [true, false] (fun _ => [false, true]))
          [0, 1, 2, 3, 3]) = some s1 ∧
      s1.inp 1 = [false, false] ∧ s1.out 1 = [false, false] := by
  obtain ⟨s1, h1, h2⟩ := scheduler_step_frame false diamond
    (genAnalysis 2 [true, false] (fun _ => [false, true]))
    (initialState false diamond (genAnalysis 2 [true, false] (fun _ => [false, true]))
      [0, 1, 2, 3, 3]) 3 [3, 2, 1, 0] rfl
  exact ⟨s1, h1, (h2 1 (by decide)).1, (h2 1 (by decide)).2⟩

/-- C18. Fixed vector length invariant: if `top` has length `k`, every
initial interior point has length `k`, `transfer` returns a vector of length
`k` (on inputs of length `k`), and `meet` and the boundary condition keep the
length `k` of their target, then after initialization and after any number `n`
of scheduler steps, in both directions, every `in[b]` and `out[b]` has length
`k`. -/
theorem fixed_length_invariant {B : Type} [DecidableEq B] (forward : Bool) (cfg : CFG B)
    (a : Analysis B) (k : Nat) (htop : a.top.length = k)
    (hinit : ∀ b, (a.initialInteriorPoint b).length = k)
    (htr : ∀ (b : B) (v : BitVector), v.length = k → (a.transfer b v).length = k)
    (hmeet : ∀ x y : BitVector, x.length = k → y.length = k → (a.meet x y).length = k)
    (hbd : ∀ v : BitVector, v.length = k → (a.getBoundaryCondition v).length = k)
    (seed : List B) (n : Nat) (s : State B)
    (hr : runSteps forward cfg a n (initialState forward cfg a seed) = some s) (b : B) :
    (s.inp b).length = k ∧ (s.out b).length = k := by
  cases forward with
  | true =>
    rw [runSteps_forward] at hr
    refine genericRun_length cfg.pred cfg.succ id a k hmeet htr (fun _ hv => hv) ?_ hr b
    intro c
    refine ⟨?_, hinit c⟩
    by_cases e : c = cfg.entry
    · simp only [initialState, if_true, e, setVec_same]
      exact hbd _ htop
    · simp only [initialState, if_true, setVec_other _ _ e]
      exact htop
  | false =>
    rw [runSteps_backward] at hr
    cases hg : genericRun cfg.succ cfg.pred a.getBoundaryCondition a n
        (initialState false cfg a seed).swap with
    | none => simp [hg] at hr
    | some sg =>
      simp only [hg, Option.map_some', Option.some.injEq] at hr
      subst hr
      have := genericRun_length cfg.succ cfg.pred a.getBoundaryCondition a k hmeet htr hbd
        (fun c => ⟨htop, hinit c⟩) hg b
      exact ⟨this.2, this.1⟩

/-- Witness for C18: a backward run of four steps on the diamond with 2-bit
vectors. -/
theorem fixed_length_invariant_witness :
    ∃ s : State (Fin 4),
      runSteps false diamond (genAnalysis 2 [true, false] (fun _ => [false, true])) 4
        (initialState false diamond (genAnalysis 2 [true, false] (fun _ => [false, true]))
          [0, 1, 2, 3, 3]) = some s ∧
      (s.inp 3).length = 2 ∧ (s.out 3).length = 2 := by
  cases h : runSteps false diamond (genAnalysis 2 [true, false] (fun _ => [false, true])) 4
      (initialState false diamond (genAnalysis 2 [true, false] (fun _ => [false, true]))
        [0, 1, 2, 3, 3]) with
  | none =>
    have h1 : (runSteps false diamond (genAnalysis 2 [true, false] (fun _ => [false, true])) 4
      (initialState false diamond (genAnalysis 2 [true, false] (fun _ => [false, true]))
        [0, 1, 2, 3, 3])).isSome = true := by decide
    rw [h] at h1
    cases h1
  | some s =>
    exact ⟨s, rfl, fixed_length_invariant false diamond
      (genAnalysis 2 [true, false] (fun _ => [false, true])) 2 rfl (fun _ => rfl)
      (fun _ _ hv => bvOr_length hv rfl) (fun _ _ hx hy => bvOr_length hx hy)
      (fun _ _ => rfl) [0, 1, 2, 3, 3] 4 s h 3⟩

/-- C19 (fails on the code). On `lateBranch` the sequence `bfs` produces is
`[0, 1, 2]`, so the backward run starts from the worklist `[2, 1, 0]` and its
first step evaluates block `2`, which has the successor `1` and is not an
exit. -/
theorem backward_first_block_not_exit :
    bfs lateBranch 3 [] = some [0, 1, 2] ∧
    (initialState false lateBranch (genAnalysis 2 [true, false] (fun _ => [false, true]))
      [0, 1, 2]).worklist = [2, 1, 0] ∧
    evalCount false lateBranch (genAnalysis 2 [true, false] (fun _ => [false, true])) 2 1
      (initialState false lateBranch (genAnalysis 2 [true, false] (fun _ => [false, true]))
        [0, 1, 2]) = 1 ∧
    lateBranch.succ 2 = [1] :=
  ⟨by decide, by decide, by decide, by decide⟩

/-- C20. Unreachable blocks keep their initial values in a forward run: a
block `b` that no path of successor edges from the entry reaches is never
evaluated, and after any number `n` of scheduler steps, as in the state
`runOnFunction` returns, `in[b]` is the copy of `top` and `out[b]` is
`initialInteriorPoint(b)`. -/
theorem unreachable_block_untouched {B : Type} [DecidableEq B] (cfg : CFG B) (a : Analysis B)
    (bfsFuel : Nat) (seed : List B) (hseed : bfs cfg bfsFuel [] = some seed) (b : B)
    (hb : ¬ cfg.Reachable b) :
    (∀ (n : Nat) (s : State B),
      runSteps true cfg a n (initialState true cfg a seed) = some s →
      s.inp b = a.top ∧ s.out b = a.initialInteriorPoint b ∧
      evalCount true cfg a b n (initialState true cfg a seed) = 0) ∧
    (∀ (loopFuel : Nat) (sf : State B),
      runOnFunction true cfg a bfsFuel loopFuel = some sf →
      sf.inp b = a.top ∧ sf.out b = a.initialInteriorPoint b) := by
  have hne : b ≠ cfg.entry := fun e => hb (e ▸ Relation.ReflTransGen.refl)
  have h0 : (initialState true cfg a seed).inp b = a.top := by
    simp [initialState, setVec_other _ _ hne]
  have key : ∀ (n : Nat) (s : State B),
      runSteps true cfg a n (initialState true cfg a seed) = some s →
      s.inp b = a.top ∧ s.out b = a.initialInteriorPoint b ∧
      evalCount true cfg a b n (initialState true cfg a seed) = 0 := by
    intro n s hr
    obtain ⟨h1, h2, h3⟩ := forward_frame cfg a (fun c => c ∈ seed) (bfs_succ_closed cfg hseed)
      b (fun hm => hb (bfs_mem_reachable cfg hseed b hm)) n _ s (fun c hc => hc) hr
    exact ⟨h1.trans h0, h2, h3⟩
  refine ⟨key, ?_⟩
  intro loopFuel sf hr
  obtain ⟨seed1, n, hs, _, hn, _⟩ := runOnFunction_some true cfg a hr
  rw [hseed, Option.some.injEq] at hs
  subst hs
  exact ⟨(key n sf hn).1, (key n sf hn).2.1⟩

/-- Witness for C20 on `deadBlock`: the dead block `2` keeps `top` and its
initial interior point, which do not satisfy its transfer equation. -/
theorem unreachable_block_untouched_witness :
    ∃ sf : State (Fin 3),
      runOnFunction true deadBlock (genAnalysis 2 [true, false] (fun _ => [false, true])) 2 5
        = some sf ∧
      sf.inp 2 = [false, false] ∧ sf.out 2 = [false, false] ∧
      sf.out 2 ≠ (genAnalysis 2 [true, false] (fun _ => [false, true])).transfer 2 (sf.inp 2) := by
  cases h : runOnFunction true deadBlock
      (genAnalysis 2 [true, false] (fun _ => [false, true])) 2 5 with
  | none =>
    have h1 : (runOnFunction true deadBlock
      (genAnalysis 2 [true, false] (fun _ => [false, true])) 2 5).isSome = true := by decide
    rw [h] at h1
    cases h1
  | some sf =>
    have key := (unreachable_block_untouched deadBlock
      (genAnalysis 2 [true, false] (fun _ => [false, true])) 2 [0, 1] (by decide) 2
      (fun hr => reachable_inv deadBlock (fun c => c ≠ 2) (by decide) (by decide) hr rfl)).2
      5 sf h
    refine ⟨sf, rfl, key.1, key.2, ?_⟩
    rw [key.1, key.2]
    decide

end Dataflow
